import Mathlib

/-!
Verification of the text-conversion core of `streamlit_app.py` (indent format
transformer).  Strings are modelled as `List Char`; each definition below is a
direct translation of the corresponding Python function.  Regular expressions
are translated by their matching semantics on the concrete patterns used:
`NUM_MARKER_RE`, `BULLET_RE`, `CODE_FENCE_RE`, `LEADING_WS_RE`, the Slack
block-quote pre-clean and the blank-line collapse.  Python's `\s` / `str.strip`
whitespace class is modelled by `isPySpace`; `\d` and `[a-zA-Z]` are modelled
over their ASCII ranges (`Char.isDigit` / `Char.isAlpha`), which is the range
exercised by the application and the specification.
-/

/-- Python whitespace class (the character set of `str.isspace`, which is also
the set matched by `\s` in `re` on `str`). -/
def isPySpace (c : Char) : Bool :=
  c = ' ' || c = '\t' || c = '\n' || c = '\x0b' || c = '\x0c' || c = '\r' ||
  c = '\x1c' || c = '\x1d' || c = '\x1e' || c = '\x1f' || c = '\u0085' ||
  c = ' ' || c = ' ' || c = ' ' || c = ' ' || c = ' ' ||
  c = ' ' || c = ' ' || c = ' ' || c = ' ' || c = ' ' ||
  c = ' ' || c = ' ' || c = ' ' || c = ' ' || c = ' ' ||
  c = ' ' || c = ' ' || c = '　'

/-- Character class `[ \t]` of `LEADING_WS_RE`. -/
def isSpaceTab (c : Char) : Bool :=
  c = ' ' || c = '\t'

/-- Character class of `BULLET_RE` (`BULLET_CHARS`, duplicates removed). -/
def isBullet (c : Char) : Bool :=
  c = '-' || c = '*' || c = '•' || c = '‣' || c = '⁃' ||
  c = '∙' || c = '◦' || c = '・' || c = '·' ||
  c = '⁌' || c = '⁍' || c = '−' || c = '–' ||
  c = '—' || c = '―'

/-- Character class `[ivxIVX]` of `NUM_MARKER_RE`. -/
def isRoman (c : Char) : Bool :=
  c = 'i' || c = 'v' || c = 'x' || c = 'I' || c = 'V' || c = 'X'

/-- The backtick character (written via its code point). -/
def backtick : Char := Char.ofNat 96

/-- The triple-backtick fence delimiter. -/
def fence : List Char := "```".toList

/-- Zero-width characters removed by `ZERO_WIDTH_RE`. -/
def isZeroWidth (c : Char) : Bool :=
  c = '​' || c = '‌' || c = '‍' || c = '﻿'

/-- The `SMART_QUOTES` table, in Python dict insertion order. -/
def smartQuotes : List (List Char × List Char) :=
  [("“".toList, "\"".toList), ("”".toList, "\"".toList),
   ("„".toList, "\"".toList), ("′".toList, "'".toList),
   ("’".toList, "'".toList), ("‘".toList, "'".toList),
   ("‛".toList, "'".toList), ("‹".toList, "<".toList),
   ("›".toList, ">".toList)]

/-- Fuel-driven model of Python `str.replace(pat, rep)`: replaces every
non-overlapping occurrence left to right, never rescanning the replacement.
The fuel is always instantiated with `length + 1`, which suffices because each
step consumes at least one character of the scanned string. -/
def replaceAllF : Nat → List Char → List Char → List Char → List Char
  | 0, s, _, _ => s
  | _ + 1, [], _, _ => []
  | m + 1, c :: rest, pat, rep =>
    if pat.isPrefixOf (c :: rest) then
      rep ++ replaceAllF m ((c :: rest).drop pat.length) pat rep
    else
      c :: replaceAllF m rest pat rep

/-- Python `str.replace` on `List Char`. -/
def replaceAll (s pat rep : List Char) : List Char :=
  replaceAllF (s.length + 1) s pat rep

/-- Model of `normalize_text` from the source: line-ending canonicalization,
NBSP and full-width-space replacement, zero-width removal, then the smart-quote
table when enabled. -/
def normalize_text (text : List Char) (convert_smart_quotes : Bool) : List Char :=
  let t1 := replaceAll text "\r\n".toList "\n".toList
  let t2 := replaceAll t1 "\r".toList "\n".toList
  let t3 := replaceAll t2 " ".toList " ".toList
  let t4 := replaceAll t3 "　".toList "  ".toList
  let t5 := t4.filter (fun c => !isZeroWidth c)
  if convert_smart_quotes then
    smartQuotes.foldl (fun t kv => replaceAll t kv.1 kv.2) t5
  else t5

/-- Fuel-driven model of the Slack pre-clean
`re.sub(r"^[\>]+\s?", "> ", text, flags=re.MULTILINE)`: at each line start, a
run of `>` plus at most one following whitespace character is replaced by
`"> "`; scanning resumes after the consumed characters. -/
def slackCleanF : Nat → Bool → List Char → List Char
  | 0, _, s => s
  | _ + 1, _, [] => []
  | m + 1, lineStart, c :: rest =>
    if lineStart && c = '>' then
      let rest1 := rest.dropWhile (fun d => d = '>')
      match rest1 with
      | [] => ['>', ' ']
      | d :: rest2 =>
        if isPySpace d then '>' :: ' ' :: slackCleanF m (d = '\n') rest2
        else '>' :: ' ' :: slackCleanF m false (d :: rest2)
    else
      c :: slackCleanF m (c = '\n') rest

/-- Slack pre-clean entry point (`^` also matches at position 0). -/
def slackClean (s : List Char) : List Char :=
  slackCleanF (s.length + 1) true s

/-- Source-specific pre-clean dispatch from `convert`. -/
def preclean (source : String) (t : List Char) : List Char :=
  if source = "Slack" then slackClean t
  else if source = "Google Docs" then replaceAll t "•\t".toList "- ".toList
  else t

/-- Split at the first occurrence of a literal triple backtick:
`splitFence l = some (a, b)` when `l = a ++ fence ++ b` with the occurrence
chosen leftmost, and `none` when no occurrence exists.  This is the
position-by-position search done by the regex engine for `` ``` ``. -/
def splitFence : List Char → Option (List Char × List Char)
  | [] => none
  | c :: rest =>
    if fence.isPrefixOf (c :: rest) then some ([], (c :: rest).drop 3)
    else (splitFence rest).map (fun p => (c :: p.1, p.2))

/-- Placeholder token `__CODEBLOCK_{n}__` from `extract_code_fences`. -/
def placeholderKey (n : Nat) : List Char :=
  "__CODEBLOCK_".toList ++ (Nat.repr n).toList ++ "__".toList

/-- Fuel-driven model of `CODE_FENCE_RE.sub(_repl, text)` with the non-greedy
pattern ```` ```[\s\S]*?``` ````: each match pairs an opener with the nearest
closer; an opener with no closer leaves the rest of the text unmatched (the
regex cannot match anywhere once the leftmost opener has no closer, since any
later opener would itself serve as that closer). -/
def extractAuxF : Nat → List Char → Nat → List Char × List (List Char × List Char)
  | 0, l, _ => (l, [])
  | m + 1, l, cnt =>
    match splitFence l with
    | none => (l, [])
    | some (pre, rest1) =>
      match splitFence rest1 with
      | none => (l, [])
      | some (mid, rest2) =>
        let key := placeholderKey cnt
        let pr := extractAuxF m rest2 (cnt + 1)
        (pre ++ key ++ pr.1, (key, fence ++ mid ++ fence) :: pr.2)

/-- Model of `extract_code_fences`. -/
def extract_code_fences (text : List Char) : List Char × List (List Char × List Char) :=
  extractAuxF (text.length + 1) text 0

/-- Model of `restore_code_fences`: one `str.replace` per block, in insertion
order of the placeholder map. -/
def restore_code_fences (text : List Char) (blocks : List (List Char × List Char)) : List Char :=
  blocks.foldl (fun t kv => replaceAll t kv.1 kv.2) text

/-- Match of `BULLET_RE` = `^[BULLET_CHARS]\s+` against a line: one bullet
character followed by a maximal nonempty whitespace run; returns the remainder
after the match. -/
def bulletMatch : List Char → Option (List Char)
  | [] => none
  | c :: rest =>
    if isBullet c then
      if (rest.takeWhile isPySpace).isEmpty then none
      else some (rest.dropWhile isPySpace)
    else none

/-- Parse of `[\)\.]\s+` after a captured token: a separator `.` or `)` and a
maximal nonempty whitespace run; returns the remainder. -/
def sepWsTail : List Char → Option (List Char)
  | [] => none
  | s :: r2 =>
    if s = '.' || s = ')' then
      if (r2.takeWhile isPySpace).isEmpty then none
      else some (r2.dropWhile isPySpace)
    else none

/-- Match of `NUM_MARKER_RE` = `^(\d+|[a-zA-Z]|[ivxIVX]+)[\)\.]\s+`, returning
the captured group and the remainder after the match.  The alternation is
tried in order with the regex's backtracking behaviour: a greedy `\d+` or
`[ivxIVX]+` run that is not followed by the separator cannot be rescued by a
shorter run (the next character would then be another digit/roman letter, not
a separator), so only maximal runs are considered. -/
def numMatch : List Char → Option (List Char × List Char)
  | [] => none
  | c :: rest =>
    if c.isDigit then
      match sepWsTail ((c :: rest).dropWhile Char.isDigit) with
      | some r => some ((c :: rest).takeWhile Char.isDigit, r)
      | none => none
    else if c.isAlpha then
      match sepWsTail rest with
      | some r => some ([c], r)
      | none =>
        if isRoman c then
          match sepWsTail ((c :: rest).dropWhile isRoman) with
          | some r => some ((c :: rest).takeWhile isRoman, r)
          | none => none
        else none
    else none

/-- First rewrite of `unify_markers`: `BULLET_RE.sub("- ", line)` guarded by
`BULLET_RE.match(line)`. -/
def bulletStage (line : List Char) : List Char :=
  match bulletMatch line with
  | some r => '-' :: ' ' :: r
  | none => line

/-- Second rewrite of `unify_markers`:
`NUM_MARKER_RE.sub(lambda m: f"{m.group(1)}. ", line)` guarded by a match. -/
def numStage (line : List Char) : List Char :=
  match numMatch line with
  | some gr => gr.1 ++ '.' :: ' ' :: gr.2
  | none => line

/-- Model of `unify_markers`: bullet rewrite first, then numbered-marker
rewrite on the (possibly rewritten) line. -/
def unify_markers (line : List Char) : List Char :=
  numStage (bulletStage line)

/-- Column-tracking core of Python `str.expandtabs(n)`: a tab advances to the
next multiple of `n` (removed when `n = 0`); the column resets after `\n` and
`\r`; every other character advances the column by one. -/
def expandAux (n : Nat) : Nat → List Char → List Char
  | _, [] => []
  | col, c :: rest =>
    if c = '\t' then
      let pad := if n = 0 then 0 else n - col % n
      List.replicate pad ' ' ++ expandAux n (col + pad) rest
    else if c = '\n' || c = '\r' then c :: expandAux n 0 rest
    else c :: expandAux n (col + 1) rest

/-- Python `str.expandtabs(n)`. -/
def expandtabs (n : Nat) (s : List Char) : List Char :=
  expandAux n 0 s

/-- Python `str.rstrip()`: remove the maximal trailing whitespace run. -/
def rstrip (s : List Char) : List Char :=
  (s.reverse.dropWhile isPySpace).reverse

/-- Python `not raw.strip()`: the line contains only whitespace. -/
def isBlank (s : List Char) : Bool :=
  s.all isPySpace

/-- Per-line body of `lines_to_markdown`: blank lines become empty output
lines; content lines are tab-expanded, split by `LEADING_WS_RE`, levelled,
marker-unified, re-indented with spaces and optionally right-trimmed. -/
def mdLine (n : Nat) (trim : Bool) (raw : List Char) : List Char :=
  if isBlank raw then []
  else
    let expanded := expandtabs n raw
    let leading := expanded.takeWhile isSpaceTab
    let rest := expanded.dropWhile isSpaceTab
    let level := leading.length / n
    let rest1 := unify_markers rest
    let line := List.replicate (n * level) ' ' ++ rest1
    if trim then rstrip line else line

/-- Model of `lines_to_markdown`. -/
def lines_to_markdown (lines : List (List Char)) (n : Nat) (trim : Bool) : List (List Char) :=
  lines.map (mdLine n trim)

/-- The `re.sub(r"^\-\s+", f"{bullet_symbol} ", rest)` rewrite inside
`lines_to_gdocs`. -/
def gdocsBullet (sym : List Char) : List Char → List Char
  | [] => []
  | c :: rest =>
    if c = '-' then
      if (rest.takeWhile isPySpace).isEmpty then c :: rest
      else sym ++ ' ' :: rest.dropWhile isPySpace
    else c :: rest

/-- Per-line body of `lines_to_gdocs`: like `mdLine` but the canonical `- ` is
rewritten to the configured bullet symbol and the indent is rendered as tabs. -/
def gdocsLine (n : Nat) (sym : List Char) (trim : Bool) (raw : List Char) : List Char :=
  if isBlank raw then []
  else
    let expanded := expandtabs n raw
    let leading := expanded.takeWhile isSpaceTab
    let rest := expanded.dropWhile isSpaceTab
    let level := leading.length / n
    let rest1 := unify_markers rest
    let rest2 := gdocsBullet sym rest1
    let line := List.replicate level '\t' ++ rest2
    if trim then rstrip line else line

/-- Model of `lines_to_gdocs`. -/
def lines_to_gdocs (lines : List (List Char)) (n : Nat) (sym : List Char) (trim : Bool) :
    List (List Char) :=
  lines.map (gdocsLine n sym trim)

/-- Per-line body of `lines_to_plain`: tab expansion and optional right trim
only. -/
def plainLine (n : Nat) (trim : Bool) (raw : List Char) : List Char :=
  let expanded := expandtabs n raw
  if trim then rstrip expanded else expanded

/-- Model of `lines_to_plain`. -/
def lines_to_plain (lines : List (List Char)) (n : Nat) (trim : Bool) : List (List Char) :=
  lines.map (plainLine n trim)

/-- A `{level, text}` record of the JSON outline. -/
structure OutlineItem where
  level : Nat
  text : List Char
deriving DecidableEq, Repr

/-- Record built by `to_json_outline` for one content-bearing line. -/
def itemFor (n : Nat) (raw : List Char) : OutlineItem :=
  let expanded := expandtabs n raw
  let leading := expanded.takeWhile isSpaceTab
  let rest := expanded.dropWhile isSpaceTab
  { level := leading.length / n, text := unify_markers rest }

/-- The `items` loop of `to_json_outline`: blank lines are skipped, every other
line contributes one record in document order. -/
def outlineItems (lines : List (List Char)) (n : Nat) : List OutlineItem :=
  match lines with
  | [] => []
  | raw :: rest =>
    if isBlank raw then outlineItems rest n
    else itemFor n raw :: outlineItems rest n

/-- JSON string escaping of `json.dumps` with `ensure_ascii=False`: quote,
backslash and control characters are escaped, everything else is emitted
verbatim. -/
def jsonEscChar (c : Char) : List Char :=
  if c = '"' then ['\\', '"']
  else if c = '\\' then ['\\', '\\']
  else if c = '\n' then ['\\', 'n']
  else if c = '\t' then ['\\', 't']
  else if c = '\r' then ['\\', 'r']
  else if c = '\x08' then ['\\', 'b']
  else if c = '\x0c' then ['\\', 'f']
  else if c.toNat < 32 then
    let d1 := c.toNat / 16
    let d2 := c.toNat % 16
    let hex := fun d => if d < 10 then Char.ofNat (48 + d) else Char.ofNat (87 + d)
    ['\\', 'u', '0', '0', hex d1, hex d2]
  else [c]

/-- JSON escaping of a whole string. -/
def jsonEscape (s : List Char) : List Char :=
  s.flatMap jsonEscChar

/-- Serialization of one record, matching
`json.dumps(items, ensure_ascii=False, indent=2)`. -/
def jsonItemBlock (it : OutlineItem) : List Char :=
  "  \x7b\n    \"level\": ".toList ++ (Nat.repr it.level).toList ++
  ",\n    \"text\": \"".toList ++ jsonEscape it.text ++ "\"\n  \x7d".toList

/-- Python `sep.join(parts)` on `List Char`. -/
def joinWith (sep : List Char) : List (List Char) → List Char
  | [] => []
  | [l] => l
  | l :: ls => l ++ sep ++ joinWith sep ls

/-- Serialization of the record list, matching
`json.dumps(items, ensure_ascii=False, indent=2)`. -/
def jsonDumps (items : List OutlineItem) : List Char :=
  match items with
  | [] => "[]".toList
  | _ =>
    "[\n".toList ++ joinWith ",\n".toList (items.map jsonItemBlock) ++ "\n]".toList

/-- Model of `to_json_outline`. -/
def to_json_outline (lines : List (List Char)) (n : Nat) : List Char :=
  jsonDumps (outlineItems lines n)

/-- Python `text.split("\n")` on `List Char`. -/
def splitNl : List Char → List (List Char)
  | [] => [[]]
  | c :: rest =>
    if c = '\n' then [] :: splitNl rest
    else
      match splitNl rest with
      | [] => [[c]]
      | l :: t => (c :: l) :: t

/-- Python `"\n".join(lines)` on `List Char`. -/
def joinNl (lines : List (List Char)) : List Char :=
  joinWith ['\n'] lines

/-- Rendering of one pending newline run by the blank-line collapse: a run of
three or more newlines becomes exactly two. -/
def emitRun (n : Nat) : List Char :=
  if n ≥ 3 then ['\n', '\n'] else List.replicate n '\n'

/-- State-machine model of `re.sub(r"\n{3,}", "\n\n", result)`: `pending`
counts the newline run being scanned; maximal runs are re-emitted through
`emitRun`. -/
def collapseAux (pending : Nat) : List Char → List Char
  | [] => emitRun pending
  | c :: rest =>
    if c = '\n' then collapseAux (pending + 1) rest
    else emitRun pending ++ c :: collapseAux 0 rest

/-- Blank-line collapse of `convert`. -/
def collapseBlank (s : List Char) : List Char :=
  collapseAux 0 s

/-- Model of `convert`: normalize, source pre-clean, optional fence
extraction, per-target rendering, optional blank-line collapse, optional
fence restoration.  Option fields keep the order and the concrete string
values of the Python function. -/
def convert (text : List Char) (source target : String) (indent_size : Nat)
    (collapse_blank_lines trim_trailing_ws keep_code_fences slack_wrap_codeblock : Bool)
    (gdocs_bullet_symbol : List Char) (convert_smart_quotes : Bool) : List Char :=
  let t1 := normalize_text text convert_smart_quotes
  let t2 := preclean source t1
  let ex := if keep_code_fences then extract_code_fences t2 else (t2, [])
  let lines := splitNl ex.1
  let result :=
    if target = "Markdown / Obsidian" then
      joinNl (lines_to_markdown lines indent_size trim_trailing_ws)
    else if target = "Slack-friendly" then
      let r := joinNl (lines_to_markdown lines indent_size trim_trailing_ws)
      if slack_wrap_codeblock then "```\n".toList ++ r ++ "\n```".toList else r
    else if target = "Google Docs-friendly" then
      joinNl (lines_to_gdocs lines indent_size gdocs_bullet_symbol trim_trailing_ws)
    else if target = "Plain text" then
      joinNl (lines_to_plain lines indent_size trim_trailing_ws)
    else if target = "JSON outline (beta)" then
      to_json_outline lines indent_size
    else joinNl lines
  let result2 := if collapse_blank_lines then collapseBlank result else result
  if keep_code_fences then restore_code_fences result2 ex.2 else result2

/-! Head predicates and basic character-class facts. -/

/-- Check that a list is empty or starts with a character on which `p` fails. -/
def headNot (p : Char → Bool) : List Char → Bool
  | [] => true
  | c :: _ => !p c

theorem alpha_not_digit {c : Char} (h : c.isAlpha = true) : c.isDigit = false := by
  simp [Char.isAlpha, Char.isUpper, Char.isLower, Char.isDigit, UInt32.le_def,
    BitVec.le_def] at *
  omega

theorem roman_alpha {c : Char} (h : isRoman c = true) : c.isAlpha = true := by
  simp [isRoman, or_assoc] at h
  rcases h with rfl | rfl | rfl | rfl | rfl | rfl <;> decide

theorem digit_not_bullet {c : Char} (h : c.isDigit = true) : isBullet c = false := by
  cases hb : isBullet c with
  | false => rfl
  | true =>
    exfalso
    simp [isBullet, or_assoc] at hb
    rcases hb with rfl | rfl | rfl | rfl | rfl | rfl | rfl | rfl | rfl | rfl | rfl | rfl |
      rfl | rfl | rfl <;> simp at h

theorem alpha_not_bullet {c : Char} (h : c.isAlpha = true) : isBullet c = false := by
  cases hb : isBullet c with
  | false => rfl
  | true =>
    exfalso
    simp [isBullet, or_assoc] at hb
    rcases hb with rfl | rfl | rfl | rfl | rfl | rfl | rfl | rfl | rfl | rfl | rfl | rfl |
      rfl | rfl | rfl <;> simp at h

theorem digit_not_space {c : Char} (h : c.isDigit = true) : isPySpace c = false := by
  cases hb : isPySpace c with
  | false => rfl
  | true =>
    exfalso
    simp [isPySpace, or_assoc] at hb
    rcases hb with rfl | rfl | rfl | rfl | rfl | rfl | rfl | rfl | rfl | rfl | rfl | rfl |
      rfl | rfl | rfl | rfl | rfl | rfl | rfl | rfl | rfl | rfl | rfl | rfl | rfl | rfl |
      rfl | rfl | rfl <;> simp at h

theorem alpha_not_space {c : Char} (h : c.isAlpha = true) : isPySpace c = false := by
  cases hb : isPySpace c with
  | false => rfl
  | true =>
    exfalso
    simp [isPySpace, or_assoc] at hb
    rcases hb with rfl | rfl | rfl | rfl | rfl | rfl | rfl | rfl | rfl | rfl | rfl | rfl |
      rfl | rfl | rfl | rfl | rfl | rfl | rfl | rfl | rfl | rfl | rfl | rfl | rfl | rfl |
      rfl | rfl | rfl <;> simp at h

theorem alpha_ne_dot {c : Char} (h : c.isAlpha = true) : c ≠ '.' := by
  rintro rfl; simp at h

theorem alpha_ne_paren {c : Char} (h : c.isAlpha = true) : c ≠ ')' := by
  rintro rfl; simp at h

theorem digit_ne_dot {c : Char} (h : c.isDigit = true) : c ≠ '.' := by
  rintro rfl; simp at h

theorem digit_ne_paren {c : Char} (h : c.isDigit = true) : c ≠ ')' := by
  rintro rfl; simp at h

theorem roman_not_sep {c : Char} (h : isRoman c = true) : (c = '.' || c = ')') = false := by
  simp [isRoman, or_assoc] at h
  rcases h with rfl | rfl | rfl | rfl | rfl | rfl <;> decide

/-! Helpers for `takeWhile` and `dropWhile` on decomposed lists. -/

theorem takeWhile_all_head {p : Char → Bool} {a b : List Char}
    (ha : ∀ c ∈ a, p c = true) (hb : headNot p b = true) :
    (a ++ b).takeWhile p = a := by
  rw [List.takeWhile_append_of_pos ha]
  cases b with
  | nil => simp
  | cons d b' =>
    simp only [headNot, Bool.not_eq_true'] at hb
    simp [List.takeWhile_cons, hb]

theorem dropWhile_all_head {p : Char → Bool} {a b : List Char}
    (ha : ∀ c ∈ a, p c = true) (hb : headNot p b = true) :
    (a ++ b).dropWhile p = b := by
  rw [List.dropWhile_append_of_pos ha]
  cases b with
  | nil => simp
  | cons d b' =>
    simp only [headNot, Bool.not_eq_true'] at hb
    simp [List.dropWhile_cons, hb]

theorem headNot_dropWhile (p : Char → Bool) (l : List Char) :
    headNot p (l.dropWhile p) = true := by
  induction l with
  | nil => rfl
  | cons c rest ih =>
    by_cases h : p c = true
    · simpa [List.dropWhile_cons, h] using ih
    · simp only [Bool.not_eq_true] at h
      simp [List.dropWhile_cons, h, headNot]

/-! Occurrence (infix) helpers. -/

theorem infix_extend_left {x b : List Char} (a : List Char) (h : x <:+: b) :
    x <:+: a ++ b := by
  obtain ⟨s, t, rfl⟩ := h
  exact ⟨a ++ s, t, by simp⟩

theorem infix_extend_right {x a : List Char} (b : List Char) (h : x <:+: a) :
    x <:+: a ++ b := by
  obtain ⟨s, t, rfl⟩ := h
  exact ⟨s, t ++ b, by simp⟩

theorem infix_tail_of_head_ne {c : Char} {xs pre suf : List Char}
    (hpre : ∀ d ∈ pre, d ≠ c) (h : (c :: xs) <:+: pre ++ suf) :
    (c :: xs) <:+: suf := by
  induction pre with
  | nil => simpa using h
  | cons d pre' ih =>
    rcases List.infix_cons_iff.mp h with hp | hi
    · exfalso
      obtain ⟨t, ht⟩ := hp
      have hdc : d = c := by
        have := congrArg (fun l => l.head?) ht
        simpa using this.symm
      exact hpre d (by simp) hdc
    · exact ih (fun e he => hpre e (by simp [he])) hi

theorem infix_drop_head {p : Char → Bool} {c : Char} {xs l : List Char}
    (hc : p c = false) (h : (c :: xs) <:+: l) :
    (c :: xs) <:+: l.dropWhile p := by
  have hsplit : l.takeWhile p ++ l.dropWhile p = l := List.takeWhile_append_dropWhile p l
  have htake : ∀ d ∈ l.takeWhile p, d ≠ c := by
    intro d hd
    have := List.mem_takeWhile_imp hd
    intro hdc
    rw [hdc, hc] at this
    exact Bool.false_ne_true this
  exact infix_tail_of_head_ne htake (by rwa [hsplit])

theorem infix_rstrip_last {d : Char} {xs l : List Char}
    (hd : isPySpace d = false) (h : (xs ++ [d]) <:+: l) :
    (xs ++ [d]) <:+: rstrip l := by
  have hrev : (d :: xs.reverse) <:+: l.reverse := by
    have := List.reverse_infix.mpr h
    simpa using this
  have := infix_drop_head hd hrev
  have h2 : (d :: xs.reverse).reverse <:+: (l.reverse.dropWhile isPySpace).reverse :=
    List.reverse_infix.mpr this
  simpa [rstrip] using h2

/-! Computation and inversion lemmas for marker matching. -/

theorem bulletMatch_run {c : Char} {ws r : List Char}
    (hc : isBullet c = true) (hne : ws ≠ []) (hall : ∀ d ∈ ws, isPySpace d = true)
    (hr : headNot isPySpace r = true) :
    bulletMatch (c :: ws ++ r) = some r := by
  have ht : (ws ++ r).takeWhile isPySpace = ws := takeWhile_all_head hall hr
  have hd : (ws ++ r).dropWhile isPySpace = r := dropWhile_all_head hall hr
  simp [bulletMatch, hc, ht, hd, hne]

theorem bulletMatch_head_no {c : Char} {rest : List Char} (hc : isBullet c = false) :
    bulletMatch (c :: rest) = none := by
  simp [bulletMatch, hc]

theorem bulletMatch_some {l r : List Char} (h : bulletMatch l = some r) :
    ∃ c ws, l = c :: ws ++ r ∧ isBullet c = true ∧ ws ≠ [] ∧
      (∀ d ∈ ws, isPySpace d = true) ∧ headNot isPySpace r = true := by
  cases l with
  | nil => simp [bulletMatch] at h
  | cons c rest =>
    by_cases hc : isBullet c = true
    · by_cases he : (rest.takeWhile isPySpace).isEmpty = true
      · simp [bulletMatch, hc, he] at h
      · simp only [bulletMatch, hc, if_true] at h
        rw [if_neg he] at h
        obtain rfl : List.dropWhile isPySpace rest = r := Option.some.inj h
        refine ⟨c, rest.takeWhile isPySpace, ?_, hc, ?_, ?_, ?_⟩
        · simp [List.takeWhile_append_dropWhile]
        · simpa [List.isEmpty_iff] using he
        · intro d hd; exact List.mem_takeWhile_imp hd
        · exact headNot_dropWhile _ _
    · simp [bulletMatch, hc] at h

theorem sepWsTail_some {l r : List Char} (h : sepWsTail l = some r) :
    ∃ s ws, l = s :: ws ++ r ∧ (s = '.' ∨ s = ')') ∧ ws ≠ [] ∧
      (∀ d ∈ ws, isPySpace d = true) ∧ headNot isPySpace r = true := by
  cases l with
  | nil => simp [sepWsTail] at h
  | cons s r2 =>
    by_cases hs : (s = '.' || s = ')') = true
    · by_cases he : (r2.takeWhile isPySpace).isEmpty = true
      · simp [sepWsTail, hs, he] at h
      · simp only [sepWsTail, hs, if_true] at h
        rw [if_neg he] at h
        obtain rfl : List.dropWhile isPySpace r2 = r := Option.some.inj h
        refine ⟨s, r2.takeWhile isPySpace, ?_, ?_, ?_, ?_, ?_⟩
        · simp [List.takeWhile_append_dropWhile]
        · simpa using hs
        · simpa [List.isEmpty_iff] using he
        · intro d hd; exact List.mem_takeWhile_imp hd
        · exact headNot_dropWhile _ _
    · simp [sepWsTail, hs] at h

theorem sepWsTail_canonical {r : List Char} (hr : headNot isPySpace r = true) :
    sepWsTail ('.' :: ' ' :: r) = some r := by
  have hws : ∀ d ∈ ([' '] : List Char), isPySpace d = true := by
    intro d hd; simp at hd; simp [hd, isPySpace]
  have ht : ((' ' :: r).takeWhile isPySpace) = [' '] := by
    simpa using takeWhile_all_head hws hr
  have hd : ((' ' :: r).dropWhile isPySpace) = r := by
    simpa using dropWhile_all_head hws hr
  simp [sepWsTail, ht, hd]

theorem sepWsTail_build {s : Char} {ws r : List Char}
    (hs : s = '.' ∨ s = ')') (hne : ws ≠ []) (hall : ∀ d ∈ ws, isPySpace d = true)
    (hr : headNot isPySpace r = true) :
    sepWsTail (s :: ws ++ r) = some r := by
  have ht : (ws ++ r).takeWhile isPySpace = ws := takeWhile_all_head hall hr
  have hd : (ws ++ r).dropWhile isPySpace = r := dropWhile_all_head hall hr
  have hs' : (s = '.' || s = ')') = true := by
    rcases hs with rfl | rfl <;> simp
  simp [sepWsTail, hs', ht, hd, hne]

theorem sepWsTail_head_no {d : Char} {r : List Char}
    (h1 : d ≠ '.') (h2 : d ≠ ')') : sepWsTail (d :: r) = none := by
  simp [sepWsTail, h1, h2]

theorem numMatch_digit_run {tok r : List Char}
    (hne : tok ≠ []) (hall : ∀ c ∈ tok, c.isDigit = true)
    (hr : headNot Char.isDigit r = true) :
    numMatch (tok ++ r) = (sepWsTail r).map (fun r2 => (tok, r2)) := by
  cases tok with
  | nil => exact absurd rfl hne
  | cons c tok' =>
    have hc : c.isDigit = true := hall c (by simp)
    have ht : ((c :: tok') ++ r).takeWhile Char.isDigit = c :: tok' :=
      takeWhile_all_head hall hr
    have hd : ((c :: tok') ++ r).dropWhile Char.isDigit = r :=
      dropWhile_all_head hall hr
    simp only [numMatch, List.cons_append, hc, if_true] at *
    rw [show (c :: (tok' ++ r)) = (c :: tok') ++ r by simp] at *
    rw [ht, hd]
    cases hsw : sepWsTail r <;> simp

theorem numMatch_single_alpha {c : Char} {l r : List Char}
    (hc : c.isAlpha = true) (hs : sepWsTail l = some r) :
    numMatch (c :: l) = some ([c], r) := by
  have hd : c.isDigit = false := alpha_not_digit hc
  simp [numMatch, hd, hc, hs]

theorem numMatch_roman_run {c d : Char} {tok' r : List Char}
    (hall : ∀ e ∈ c :: d :: tok', isRoman e = true)
    (hr : headNot isRoman r = true) :
    numMatch ((c :: d :: tok') ++ r) = (sepWsTail r).map (fun r2 => (c :: d :: tok', r2)) := by
  have hc : isRoman c = true := hall c (by simp)
  have hdr : isRoman d = true := hall d (by simp)
  have hca : c.isAlpha = true := roman_alpha hc
  have hcd : c.isDigit = false := alpha_not_digit hca
  have hsep : (d = '.' || d = ')') = false := roman_not_sep hdr
  have hdne1 : d ≠ '.' := by intro hh; rw [hh] at hsep; simp at hsep
  have hdne2 : d ≠ ')' := by intro hh; rw [hh] at hsep; simp at hsep
  have hnone : sepWsTail ((d :: tok') ++ r) = none := sepWsTail_head_no hdne1 hdne2
  have ht : ((c :: d :: tok') ++ r).takeWhile isRoman = c :: d :: tok' :=
    takeWhile_all_head hall hr
  have hd2 : ((c :: d :: tok') ++ r).dropWhile isRoman = r :=
    dropWhile_all_head hall hr
  simp only [numMatch, List.cons_append, hcd, Bool.false_eq_true, if_false, hca, if_true]
  rw [show (d :: (tok' ++ r)) = (d :: tok') ++ r by simp, hnone]
  rw [show (c :: (d :: tok' ++ r)) = (c :: d :: tok') ++ r by simp, ht, hd2]
  simp [hc]
  cases hsw : sepWsTail r <;> simp

theorem numMatch_some {l g r : List Char} (h : numMatch l = some (g, r)) :
    g ≠ [] ∧ headNot isPySpace r = true ∧
      ((∀ c ∈ g, c.isDigit = true) ∨ (∃ d, g = [d] ∧ d.isAlpha = true) ∨
        (2 ≤ g.length ∧ ∀ c ∈ g, isRoman c = true)) ∧
      ∃ s ws, l = g ++ s :: ws ++ r ∧ (s = '.' ∨ s = ')') ∧ ws ≠ [] ∧
        (∀ d ∈ ws, isPySpace d = true) := by
  cases l with
  | nil => simp [numMatch] at h
  | cons c rest =>
    by_cases hc : c.isDigit = true
    · cases hsw : sepWsTail ((c :: rest).dropWhile Char.isDigit) with
      | none =>
        rw [List.dropWhile_cons_of_pos hc] at hsw
        simp [numMatch, hc, hsw] at h
      | some r' =>
        simp only [numMatch, hc, if_true, hsw] at h
        obtain ⟨hg, hr⟩ := Prod.mk.injEq .. ▸ Option.some.inj h
        subst hg; subst hr
        obtain ⟨s, ws, hdec, hsep, hwsne, hwsall, hhead⟩ := sepWsTail_some hsw
        refine ⟨by simp [List.takeWhile_cons, hc], hhead, ?_, s, ws, ?_, hsep, hwsne, hwsall⟩
        · exact Or.inl (fun d hd => List.mem_takeWhile_imp hd)
        · conv_lhs => rw [← List.takeWhile_append_dropWhile Char.isDigit (c :: rest)]
          rw [hdec]; simp
    · by_cases ha : c.isAlpha = true
      · cases hsw : sepWsTail rest with
        | some r' =>
          simp only [numMatch, hc, Bool.false_eq_true, if_false, ha, if_true, hsw] at h
          obtain ⟨hg, hr⟩ := Prod.mk.injEq .. ▸ Option.some.inj h
          subst hg; subst hr
          obtain ⟨s, ws, hdec, hsep, hwsne, hwsall, hhead⟩ := sepWsTail_some hsw
          exact ⟨by simp, hhead, Or.inr (Or.inl ⟨c, rfl, ha⟩), s, ws, by simp [hdec], hsep,
            hwsne, hwsall⟩
        | none =>
          by_cases hrom : isRoman c = true
          · cases hsw2 : sepWsTail ((c :: rest).dropWhile isRoman) with
            | none =>
              rw [List.dropWhile_cons_of_pos hrom] at hsw2
              simp [numMatch, hc, ha, hsw, hrom, hsw2] at h
            | some r' =>
              simp only [numMatch, hc, Bool.false_eq_true, if_false, ha, if_true, hsw, hrom,
                hsw2] at h
              obtain ⟨hg, hr⟩ := Prod.mk.injEq .. ▸ Option.some.inj h
              subst hg; subst hr
              obtain ⟨s, ws, hdec, hsep, hwsne, hwsall, hhead⟩ := sepWsTail_some hsw2
              have hlen : 2 ≤ ((c :: rest).takeWhile isRoman).length := by
                rw [List.takeWhile_cons_of_pos hrom]
                cases htk : rest.takeWhile isRoman with
                | nil =>
                  exfalso
                  have hdw : rest.dropWhile isRoman = rest := by
                    cases rest with
                    | nil => rfl
                    | cons e tl =>
                      by_cases hpe : isRoman e = true
                      · rw [List.takeWhile_cons_of_pos hpe] at htk
                        exact absurd htk (by simp)
                      · simp only [Bool.not_eq_true] at hpe
                        exact List.dropWhile_cons_of_neg (by simp [hpe])
                  rw [List.dropWhile_cons_of_pos hrom, hdw, hsw] at hsw2
                  exact Option.noConfusion hsw2
                | cons e tl => simp [htk]
              refine ⟨by simp [List.takeWhile_cons_of_pos hrom], hhead,
                Or.inr (Or.inr ⟨hlen, fun d hd => List.mem_takeWhile_imp hd⟩), s, ws, ?_,
                hsep, hwsne, hwsall⟩
              conv_lhs => rw [← List.takeWhile_append_dropWhile isRoman (c :: rest)]
              rw [hdec]; simp
          · simp [numMatch, hc, ha, hsw, hrom] at h
      · simp [numMatch, hc, ha] at h

theorem dropWhile_append_ne_nil {p : Char → Bool} {a b : List Char} {d : Char} {ds : List Char}
    (h : a.dropWhile p = d :: ds) : (a ++ b).dropWhile p = d :: ds ++ b := by
  induction a with
  | nil => simp at h
  | cons c a' ih =>
    by_cases hp : p c = true
    · rw [List.dropWhile_cons_of_pos hp] at h
      rw [List.cons_append, List.dropWhile_cons_of_pos hp]
      exact ih h
    · simp only [Bool.not_eq_true] at hp
      rw [List.dropWhile_cons_of_neg (by simp [hp])] at h
      rw [List.cons_append, List.dropWhile_cons_of_neg (by simp [hp])]
      rw [← h]
      simp

/-- Token shapes accepted by the captured group of `NUM_MARKER_RE`. -/
def TokSpec (tok : List Char) : Prop :=
  (tok ≠ [] ∧ ∀ c ∈ tok, c.isDigit = true) ∨ (∃ d, tok = [d] ∧ d.isAlpha = true) ∨
    (tok ≠ [] ∧ ∀ c ∈ tok, isRoman c = true)

theorem numMatch_build {tok : List Char} {sep : Char} {ws rest : List Char}
    (htok : TokSpec tok) (hsep : sep = '.' ∨ sep = ')') (hws : ws ≠ [])
    (hwsall : ∀ d ∈ ws, isPySpace d = true) (hrest : headNot isPySpace rest = true) :
    numMatch (tok ++ sep :: ws ++ rest) = some (tok, rest) := by
  have hst : sepWsTail (sep :: ws ++ rest) = some rest := sepWsTail_build hsep hws hwsall hrest
  have hsepd : sep.isDigit = false := by rcases hsep with rfl | rfl <;> decide
  have hsepr : isRoman sep = false := by rcases hsep with rfl | rfl <;> decide
  rcases htok with ⟨hne, hall⟩ | ⟨d, rfl, hda⟩ | ⟨hne, hall⟩
  · have h1 := numMatch_digit_run hne hall
      (show headNot Char.isDigit (sep :: ws ++ rest) = true by simp [headNot, hsepd])
    simp only [List.cons_append, List.append_assoc] at h1 hst ⊢
    rw [h1, hst]
    rfl
  · exact numMatch_single_alpha hda hst
  · cases tok with
    | nil => exact absurd rfl hne
    | cons c tok' =>
      cases tok' with
      | nil =>
        exact numMatch_single_alpha (roman_alpha (hall c (by simp))) hst
      | cons d2 tok'' =>
        have h1 := numMatch_roman_run hall
          (show headNot isRoman (sep :: ws ++ rest) = true by simp [headNot, hsepr])
        simp only [List.cons_append, List.append_assoc] at h1 hst ⊢
        rw [h1, hst]
        rfl

theorem numMatch_rematch {g r : List Char}
    (hshape : (∀ c ∈ g, c.isDigit = true) ∨ (∃ d, g = [d] ∧ d.isAlpha = true) ∨
      (2 ≤ g.length ∧ ∀ c ∈ g, isRoman c = true))
    (hne : g ≠ []) (hr : headNot isPySpace r = true) :
    numMatch (g ++ '.' :: ' ' :: r) = some (g, r) := by
  have hspec : TokSpec g := by
    rcases hshape with h | h | ⟨_, h⟩
    · exact Or.inl ⟨hne, h⟩
    · exact Or.inr (Or.inl h)
    · exact Or.inr (Or.inr ⟨hne, h⟩)
  have h1 : numMatch (g ++ '.' :: ([' '] : List Char) ++ r) = some (g, r) :=
    numMatch_build hspec (Or.inl rfl) (by simp)
      (by intro d hd; simp at hd; simp [hd, isPySpace]) hr
  simpa using h1

theorem numMatch_dash_none (r : List Char) : numMatch ('-' :: ' ' :: r) = none := by
  simp [numMatch]

theorem unify_on_num {tok : List Char} {sep : Char} {ws rest : List Char}
    (htok : TokSpec tok) (hsep : sep = '.' ∨ sep = ')') (hws : ws ≠ [])
    (hwsall : ∀ d ∈ ws, isPySpace d = true) (hrest : headNot isPySpace rest = true) :
    unify_markers (tok ++ sep :: ws ++ rest) = tok ++ '.' :: ' ' :: rest := by
  have hhead : ∃ c tok', tok = c :: tok' ∧ isBullet c = false := by
    rcases htok with ⟨hne, hall⟩ | ⟨d, rfl, hda⟩ | ⟨hne, hall⟩
    · cases tok with
      | nil => exact absurd rfl hne
      | cons c tok' => exact ⟨c, tok', rfl, digit_not_bullet (hall c (by simp))⟩
    · exact ⟨d, [], rfl, alpha_not_bullet hda⟩
    · cases tok with
      | nil => exact absurd rfl hne
      | cons c tok' => exact ⟨c, tok', rfl, alpha_not_bullet (roman_alpha (hall c (by simp)))⟩
  obtain ⟨c, tok', rfl, hcb⟩ := hhead
  have hbm : bulletMatch ((c :: tok') ++ sep :: ws ++ rest) = none := by
    rw [List.cons_append]
    exact bulletMatch_head_no hcb
  have hnm := numMatch_build htok hsep hws hwsall hrest
  rw [unify_markers, bulletStage, hbm, numStage, hnm]

theorem numMatch_none_multi_alpha {c d : Char} {tok'' X : List Char}
    (hall : ∀ e ∈ c :: d :: tok'', e.isAlpha = true)
    (hnr : ∃ e ∈ c :: d :: tok'', isRoman e = false) :
    numMatch ((c :: d :: tok'') ++ X) = none := by
  have hca : c.isAlpha = true := hall c (by simp)
  have hda : d.isAlpha = true := hall d (by simp)
  have hcd : c.isDigit = false := alpha_not_digit hca
  have hsw : sepWsTail ((d :: tok'') ++ X) = none := by
    rw [List.cons_append]
    exact sepWsTail_head_no (alpha_ne_dot hda) (alpha_ne_paren hda)
  by_cases hrom : isRoman c = true
  · have hd2 : (d :: tok'').dropWhile isRoman ≠ [] := by
      intro h0
      obtain ⟨e, he, her⟩ := hnr
      have hetl : e ∈ d :: tok'' := by
        rcases List.mem_cons.mp he with rfl | h2
        · rw [hrom] at her; exact Bool.noConfusion her
        · exact h2
      have hemem : e ∈ (d :: tok'').takeWhile isRoman := by
        have hsplit := List.takeWhile_append_dropWhile isRoman (d :: tok'')
        rw [h0, List.append_nil] at hsplit
        rwa [← hsplit] at hetl
      rw [List.mem_takeWhile_imp hemem] at her
      exact Bool.noConfusion her
    obtain ⟨d0, ds, hD⟩ : ∃ d0 ds, (d :: tok'').dropWhile isRoman = d0 :: ds := by
      cases hE : (d :: tok'').dropWhile isRoman with
      | nil => exact absurd hE hd2
      | cons d0 ds => exact ⟨d0, ds, rfl⟩
    have hd0mem : d0 ∈ d :: tok'' :=
      (List.dropWhile_sublist isRoman).subset
        (show d0 ∈ (d :: tok'').dropWhile isRoman by rw [hD]; simp)
    have hd0a : d0.isAlpha = true := hall d0 (List.mem_cons_of_mem c hd0mem)
    have hdrop : ((d :: tok'') ++ X).dropWhile isRoman = d0 :: (ds ++ X) :=
      dropWhile_append_ne_nil hD
    have hsw2 : sepWsTail (((d :: tok'') ++ X).dropWhile isRoman) = none := by
      rw [hdrop]
      exact sepWsTail_head_no (alpha_ne_dot hd0a) (alpha_ne_paren hd0a)
    have hdropc : ((c :: d :: tok'') ++ X).dropWhile isRoman =
        ((d :: tok'') ++ X).dropWhile isRoman := by
      rw [List.cons_append, List.dropWhile_cons_of_pos hrom]
    conv_lhs => rw [List.cons_append]
    rw [numMatch]
    simp only [hcd, Bool.false_eq_true, if_false, hca, if_true]
    rw [show sepWsTail (d :: tok'' ++ X) = none from hsw]
    simp only [hrom, if_true]
    rw [show List.dropWhile isRoman (c :: (d :: tok'' ++ X)) =
      List.dropWhile isRoman ((d :: tok'') ++ X) from hdropc]
    rw [hsw2]
  · simp only [Bool.not_eq_true] at hrom
    conv_lhs => rw [List.cons_append]
    rw [numMatch]
    simp only [hcd, Bool.false_eq_true, if_false, hca, if_true]
    rw [show sepWsTail (d :: tok'' ++ X) = none from hsw]
    simp [hrom]

theorem unify_no_num_multi_alpha {tok : List Char} {sep : Char} {ws rest : List Char}
    (hlen : 2 ≤ tok.length) (hall : ∀ c ∈ tok, c.isAlpha = true)
    (hnr : ∃ c ∈ tok, isRoman c = false) :
    unify_markers (tok ++ sep :: ws ++ rest) = tok ++ sep :: ws ++ rest := by
  cases tok with
  | nil => simp at hlen
  | cons c tok' =>
    cases tok' with
    | nil => simp at hlen
    | cons d tok'' =>
      have hca : c.isAlpha = true := hall c (by simp)
      have hcb : isBullet c = false := alpha_not_bullet hca
      have hbm : bulletMatch ((c :: d :: tok'') ++ sep :: ws ++ rest) = none := by
        rw [List.cons_append]; exact bulletMatch_head_no hcb
      have hnm : numMatch ((c :: d :: tok'') ++ (sep :: ws ++ rest)) = none :=
        numMatch_none_multi_alpha hall hnr
      have hnm2 : numMatch (c :: d :: tok'' ++ sep :: ws ++ rest) = none := by
        simpa using hnm
      simp only [unify_markers, bulletStage, numStage, hbm, hnm2]

/-- Claim C5: a line beginning with a numbered-list token (digits, a single
letter, or roman-numeral letters) followed by `.` or `)` and required
whitespace is rewritten by `unify_markers` to the captured token, a period and
exactly one space, with the separator normalized to `.`, the following
whitespace collapsed to one space, the token kept verbatim, and the remainder
of the line unchanged. -/
theorem c5_numbered_marker_rewrite (tok : List Char) (sep : Char) (ws rest : List Char)
    (htok : TokSpec tok) (hsep : sep = '.' ∨ sep = ')') (hws : ws ≠ [])
    (hwsall : ∀ d ∈ ws, isPySpace d = true) (hrest : headNot isPySpace rest = true) :
    unify_markers (tok ++ sep :: ws ++ rest) = tok ++ '.' :: ' ' :: rest :=
  unify_on_num htok hsep hws hwsall hrest

/-- Witness for C5 at the spec's example `"1) first"`, rewritten to
`"1. first"`. -/
theorem c5_numbered_marker_rewrite_witness :
    unify_markers "1) first".toList = "1. first".toList := by
  have h := c5_numbered_marker_rewrite ['1'] ')' [' '] "first".toList
    (Or.inl ⟨by simp, by decide⟩) (Or.inr rfl) (by simp) (by decide) (by decide)
  simpa using h

/-- Claim C6: `unify_markers` is idempotent; applying it twice to any line
yields the same string as applying it once. -/
theorem c6_unify_idempotent (line : List Char) :
    unify_markers (unify_markers line) = unify_markers line := by
  cases hb : bulletMatch line with
  | some r =>
    obtain ⟨c, ws, hdec, hcb, hwsne, hwsall, hhead⟩ := bulletMatch_some hb
    have h1 : unify_markers line = '-' :: ' ' :: r := by
      rw [unify_markers, bulletStage, hb, numStage, numMatch_dash_none]
    rw [h1]
    have hb2 : bulletMatch ('-' :: ' ' :: r) = some r := by
      have h2 : bulletMatch ('-' :: ([' '] ++ r)) = some r :=
        bulletMatch_run (by decide) (by simp)
          (by intro d hd; simp at hd; simp [hd, isPySpace]) hhead
      simpa using h2
    rw [unify_markers, bulletStage, hb2, numStage, numMatch_dash_none]
  | none =>
    cases hn : numMatch line with
    | some gr =>
      obtain ⟨g, r⟩ := gr
      obtain ⟨hgne, hrhead, hshape, s, ws, hdec, hsep, hwsne, hwsall⟩ := numMatch_some hn
      have h1 : unify_markers line = g ++ '.' :: ' ' :: r := by
        rw [unify_markers, bulletStage, hb, numStage, hn]
      rw [h1]
      obtain ⟨c, g', rfl, hcb⟩ : ∃ c g', g = c :: g' ∧ isBullet c = false := by
        rcases hshape with hdig | ⟨d, rfl, hda⟩ | ⟨_, hrm⟩
        · cases g with
          | nil => exact absurd rfl hgne
          | cons c g' => exact ⟨c, g', rfl, digit_not_bullet (hdig c (by simp))⟩
        · exact ⟨d, [], rfl, alpha_not_bullet hda⟩
        · cases g with
          | nil => exact absurd rfl hgne
          | cons c g' => exact ⟨c, g', rfl, alpha_not_bullet (roman_alpha (hrm c (by simp)))⟩
      have hb2 : bulletMatch ((c :: g') ++ '.' :: ' ' :: r) = none := by
        rw [List.cons_append]
        exact bulletMatch_head_no hcb
      have hn2 : numMatch ((c :: g') ++ '.' :: ' ' :: r) = some (c :: g', r) :=
        numMatch_rematch hshape hgne hrhead
      rw [unify_markers, bulletStage, hb2, numStage, hn2]
    | none =>
      have h1 : unify_markers line = line := by
        rw [unify_markers, bulletStage, hb, numStage, hn]
      rw [h1, unify_markers, bulletStage, hb, numStage, hn]

/-- Claim C7: at most one of the two rewrite rules of `unify_markers` changes
the line in a single call, and after the bullet rewrite produces a line
starting with `- ` the numbered-marker rule cannot match. -/
theorem c7_one_rule_applies :
    (∀ line, ¬(bulletStage line ≠ line ∧ numStage (bulletStage line) ≠ bulletStage line)) ∧
    (∀ line r, bulletMatch line = some r → numMatch ('-' :: ' ' :: r) = none) := by
  constructor
  · intro line h
    obtain ⟨hbdiff, hndiff⟩ := h
    cases hb : bulletMatch line with
    | none =>
      exact hbdiff (by rw [bulletStage, hb])
    | some r =>
      apply hndiff
      rw [bulletStage, hb, numStage, numMatch_dash_none]
  · intro line r _
    exact numMatch_dash_none r

/-- Witness for C7: the line `"* x"` matches the bullet rule with remainder
`"x"`, and the numbered rule cannot match the rewritten line `"- x"`. -/
theorem c7_one_rule_applies_witness :
    numMatch ('-' :: ' ' :: ['x']) = none :=
  c7_one_rule_applies.2 ['*', ' ', 'x'] ['x'] (by decide)

/-- Claim C10: a multi-letter token is accepted by the numbered-marker
recognizer exactly when every letter is one of `i`, `v`, `x` (either case):
an all-roman multi-letter token such as `xiv)` is rewritten to `xiv. `, a
multi-letter alphabetic token containing any other letter is left unchanged,
and single letters of any kind remain accepted. -/
theorem c10_roman_only_multiletter :
    (∀ (tok : List Char) (sep : Char) (ws rest : List Char),
        2 ≤ tok.length → (∀ c ∈ tok, isRoman c = true) → (sep = '.' ∨ sep = ')') →
        ws ≠ [] → (∀ d ∈ ws, isPySpace d = true) → headNot isPySpace rest = true →
        unify_markers (tok ++ sep :: ws ++ rest) = tok ++ '.' :: ' ' :: rest) ∧
    (∀ (tok : List Char) (sep : Char) (ws rest : List Char),
        2 ≤ tok.length → (∀ c ∈ tok, c.isAlpha = true) → (∃ c ∈ tok, isRoman c = false) →
        unify_markers (tok ++ sep :: ws ++ rest) = tok ++ sep :: ws ++ rest) ∧
    (∀ (c : Char) (sep : Char) (ws rest : List Char),
        c.isAlpha = true → (sep = '.' ∨ sep = ')') → ws ≠ [] →
        (∀ d ∈ ws, isPySpace d = true) → headNot isPySpace rest = true →
        unify_markers (c :: sep :: ws ++ rest) = c :: '.' :: ' ' :: rest) := by
  refine ⟨?_, ?_, ?_⟩
  · intro tok sep ws rest hlen hall hsep hws hwsall hrest
    have hne : tok ≠ [] := by
      intro h0; rw [h0] at hlen; simp at hlen
    exact unify_on_num (Or.inr (Or.inr ⟨hne, hall⟩)) hsep hws hwsall hrest
  · intro tok sep ws rest hlen hall hnr
    exact unify_no_num_multi_alpha hlen hall hnr
  · intro c sep ws rest hca hsep hws hwsall hrest
    have h := unify_on_num (Or.inr (Or.inl ⟨c, rfl, hca⟩)) hsep hws hwsall hrest
    simpa using h

/-- Witness for C10: `"xiv) deep"` is rewritten to `"xiv. deep"`, `"xl) no"`
is left unchanged, and the single letter `"Q) x"` is rewritten to `"Q. x"`. -/
theorem c10_roman_only_multiletter_witness :
    unify_markers "xiv) deep".toList = "xiv. deep".toList ∧
    unify_markers "xl) no".toList = "xl) no".toList ∧
    unify_markers "Q) x".toList = "Q. x".toList := by
  refine ⟨?_, ?_, ?_⟩
  · have h := c10_roman_only_multiletter.1 ['x', 'i', 'v'] ')' [' '] "deep".toList
      (by simp) (by decide) (Or.inr rfl) (by simp) (by decide) (by decide)
    simpa using h
  · have h := c10_roman_only_multiletter.2.1 ['x', 'l'] ')' [' '] "no".toList
      (by simp) (by decide) ⟨'l', by simp, by decide⟩
    simpa using h
  · have h := c10_roman_only_multiletter.2.2 'Q' ')' [' '] "x".toList
      (by decide) (Or.inr rfl) (by simp) (by decide) (by decide)
    simpa using h

/-! Tab expansion and indent levels (C4, C8). -/

theorem expandAux_no_tab (n : Nat) (l : List Char) : ∀ col, '\t' ∉ expandAux n col l := by
  induction l with
  | nil => intro col; simp [expandAux]
  | cons c rest ih =>
    intro col
    by_cases hc : c = '\t'
    · subst hc
      simp only [expandAux, if_true]
      intro hmem
      rcases List.mem_append.mp hmem with h1 | h1
      · exact absurd (List.eq_of_mem_replicate h1) (by decide)
      · exact ih _ h1
    · have hni : ('\t' ∈ (c :: expandAux n (col + 1) rest)) → False := by
        intro hmem
        rcases List.mem_cons.mp hmem with h1 | h1
        · exact hc h1.symm
        · exact ih _ h1
      by_cases hnl : (c = '\n' || c = '\r') = true
      · simp only [expandAux, hc, if_false, hnl, if_true]
        intro hmem
        rcases List.mem_cons.mp hmem with h1 | h1
        · exact hc h1.symm
        · exact ih _ h1
      · simp only [expandAux, hc, if_false, hnl]
        exact hni

theorem takeWhile_spaceTab_no_tab {l : List Char} (h : '\t' ∉ l) :
    l.takeWhile isSpaceTab = l.takeWhile (fun c => c = ' ') := by
  induction l with
  | nil => rfl
  | cons c rest ih =>
    have hct : c ≠ '\t' := by intro h0; exact h (by simp [h0])
    have hrest : '\t' ∉ rest := fun h0 => h (by simp [h0])
    by_cases hsp : c = ' '
    · subst hsp
      rw [List.takeWhile_cons_of_pos (by simp [isSpaceTab]),
        List.takeWhile_cons_of_pos (by simp)]
      rw [ih hrest]
    · rw [List.takeWhile_cons_of_neg (by simp [isSpaceTab, hsp, hct]),
        List.takeWhile_cons_of_neg (by simp [hsp])]

/-- Claim C4: for a content-bearing line, the level recorded by the outline
renderer equals `floor` of the count of leading space columns of the
tab-expanded line divided by the indent size (leading whitespace is measured
after tab expansion, where only spaces remain), and levels are monotone in
that count. -/
theorem c4_indent_level (n : Nat) (raw₁ raw₂ : List Char) (hn : 0 < n)
    (h₁ : isBlank raw₁ = false) (h₂ : isBlank raw₂ = false) :
    ((outlineItems [raw₁] n).map OutlineItem.level =
      [((expandtabs n raw₁).takeWhile (fun c => c = ' ')).length / n]) ∧
    (mdLine n true raw₁ =
      (let rest := (expandtabs n raw₁).dropWhile isSpaceTab
       rstrip (List.replicate
          (n * (((expandtabs n raw₁).takeWhile (fun c => c = ' ')).length / n)) ' ' ++
          unify_markers rest))) ∧
    (((expandtabs n raw₁).takeWhile (fun c => c = ' ')).length <
        ((expandtabs n raw₂).takeWhile (fun c => c = ' ')).length →
      ∀ it₁ ∈ outlineItems [raw₁] n, ∀ it₂ ∈ outlineItems [raw₂] n,
        it₁.level ≤ it₂.level) := by
  have hkey : ∀ raw : List Char,
      (expandtabs n raw).takeWhile isSpaceTab = (expandtabs n raw).takeWhile (fun c => c = ' ') :=
    fun raw => takeWhile_spaceTab_no_tab (expandAux_no_tab n raw 0)
  refine ⟨?_, ?_, ?_⟩
  · simp only [outlineItems, h₁, Bool.false_eq_true, if_false, itemFor, List.map_cons,
      List.map_nil]
    rw [hkey raw₁]
  · simp only [mdLine, h₁, Bool.false_eq_true, if_false, if_true]
    rw [hkey raw₁]
  · intro hlt it₁ hm₁ it₂ hm₂
    simp only [outlineItems, h₁, h₂, Bool.false_eq_true, if_false] at hm₁ hm₂
    simp only [List.mem_singleton] at hm₁ hm₂
    subst hm₁; subst hm₂
    simp only [itemFor]
    rw [hkey raw₁, hkey raw₂]
    exact Nat.div_le_div_right (Nat.le_of_lt hlt)

/-- Witness for C4 at `indentSize = 2` with lines `"  a"` and `"    b"`. -/
theorem c4_indent_level_witness :
    (outlineItems ["  a".toList] 2).map OutlineItem.level = [1] ∧
    ∀ it₁ ∈ outlineItems ["  a".toList] 2, ∀ it₂ ∈ outlineItems ["    b".toList] 2,
      it₁.level ≤ it₂.level := by
  have h := c4_indent_level 2 "  a".toList "    b".toList (by decide) (by decide) (by decide)
  refine ⟨?_, ?_⟩
  · have h1 := h.1
    simpa using h1
  · intro it₁ hm₁ it₂ hm₂
    exact h.2.2 (by decide) it₁ hm₁ it₂ hm₂

/-- Claim C8 (amended): the StructuredOutline target produces exactly one
`{level, text}` record per non-blank input line, in document order, with blank
lines excluded; `text` is the marker-unified content of the tab-expanded line
with its leading space/tab run removed (trailing whitespace is preserved, not
stripped), and `level` is the computed indent level. -/
theorem c8_outline_records (lines : List (List Char)) (n : Nat) :
    outlineItems lines n = (lines.filter (fun raw => !isBlank raw)).map (itemFor n) ∧
    to_json_outline lines n =
      jsonDumps ((lines.filter (fun raw => !isBlank raw)).map (itemFor n)) ∧
    ∀ raw, (itemFor n raw).level = ((expandtabs n raw).takeWhile isSpaceTab).length / n ∧
      (itemFor n raw).text = unify_markers ((expandtabs n raw).dropWhile isSpaceTab) := by
  have hmain : outlineItems lines n = (lines.filter (fun raw => !isBlank raw)).map (itemFor n) := by
    induction lines with
    | nil => rfl
    | cons raw rest ih =>
      by_cases hb : isBlank raw = true
      · simp only [outlineItems, hb, if_true, List.filter_cons, Bool.not_true,
          Bool.false_eq_true, if_false]
        exact ih
      · simp only [Bool.not_eq_true] at hb
        simp only [outlineItems, hb, Bool.false_eq_true, if_false, List.filter_cons,
          Bool.not_false, if_true, List.map_cons]
        rw [ih]
  exact ⟨hmain, by rw [to_json_outline, hmain], fun raw => ⟨rfl, rfl⟩⟩

/-- Counterexample for C8 as stated: on the line `"a  "` the record text is
`"a  "` with its trailing spaces preserved — it differs from its
whitespace-stripped form — and `convert` serializes exactly that text. -/
theorem c8_text_trailing_ws_kept :
    outlineItems ["a  ".toList] 2 = [⟨0, "a  ".toList⟩] ∧
    rstrip "a  ".toList ≠ "a  ".toList ∧
    convert "a  ".toList "Auto" "JSON outline (beta)" 2 false false false false
        "•".toList false =
      "[\n  \x7b\n    \"level\": 0,\n    \"text\": \"a  \"\n  \x7d\n]".toList :=
  ⟨by decide, by decide, by rfl⟩

/-! Blank-line collapse (C2). -/

/-- A run of three newlines, the pattern forbidden after collapsing. -/
def nlTriple : List Char := ['\n', '\n', '\n']

theorem emitRun_all_nl (n : Nat) : ∀ d ∈ emitRun n, d = '\n' := by
  intro d hd
  by_cases h : n ≥ 3
  · simp only [emitRun, h, if_true] at hd
    simpa using hd
  · simp only [emitRun, h, if_false] at hd
    exact List.eq_of_mem_replicate hd

theorem emitRun_len_le (n : Nat) : (emitRun n).length ≤ 2 := by
  by_cases h : n ≥ 3
  · simp [emitRun, h]
  · simp only [emitRun, h, if_false, List.length_replicate]
    omega

theorem no_triple_glue {A : List Char} {c : Char} {B : List Char}
    (hA : ∀ d ∈ A, d = '\n') (hlen : A.length ≤ 2) (hc : c ≠ '\n')
    (hB : ¬ nlTriple <:+: B) : ¬ nlTriple <:+: A ++ c :: B := by
  induction A with
  | nil =>
    intro h
    rcases List.infix_cons_iff.mp (by simpa using h) with hp | hi
    · obtain ⟨t, ht⟩ := hp
      have : '\n' = c := by
        have := congrArg (fun l => l.head?) ht
        simpa [nlTriple] using this
      exact hc this.symm
    · exact hB hi
  | cons d A' ih =>
    intro h
    have hd : d = '\n' := hA d (by simp)
    have hA' : ∀ e ∈ A', e = '\n' := fun e he => hA e (by simp [he])
    have hlen' : A'.length ≤ 1 := by simpa using hlen
    rcases List.infix_cons_iff.mp (by simpa using h) with hp | hi
    · obtain ⟨t, ht⟩ := hp
      simp only [nlTriple] at ht
      have ht2 : '\n' :: '\n' :: t = A' ++ c :: B := by
        have := congrArg List.tail ht
        simpa using this
      cases A' with
      | nil =>
        have : '\n' = c := by
          have := congrArg (fun l => l.head?) ht2
          simpa using this
        exact hc this.symm
      | cons e A'' =>
        cases A'' with
        | nil =>
          have : '\n' = c := by
            have := congrArg (fun l => l.head?) (congrArg List.tail ht2)
            simpa using this
          exact hc this.symm
        | cons f A''' => simp at hlen'
    · exact ih hA' (by omega) hi

theorem collapseAux_no_triple (l : List Char) : ∀ n, ¬ nlTriple <:+: collapseAux n l := by
  induction l with
  | nil =>
    intro n h
    have := h.length_le
    have h2 := emitRun_len_le n
    simp only [collapseAux] at this
    simp [nlTriple] at this
    omega
  | cons c rest ih =>
    intro n
    by_cases hc : c = '\n'
    · subst hc
      simp only [collapseAux, if_true]
      exact ih (n + 1)
    · simp only [collapseAux, hc, if_false]
      exact no_triple_glue (emitRun_all_nl n) (emitRun_len_le n) hc (ih 0)

theorem collapseBlank_no_triple (s : List Char) : ¬ nlTriple <:+: collapseBlank s :=
  collapseAux_no_triple s 0

/-- Claim C2 (amended): with `collapseBlankLines` true and `keepCodeFences`
false, the output of `convert` contains no run of three or more consecutive
newline characters.  (With `keepCodeFences` true the restoration step runs
after the collapse and can reintroduce such runs from protected blocks.) -/
theorem c2_no_newline_triple (text : List Char) (source target : String) (n : Nat)
    (trim wrap : Bool) (sym : List Char) (smart : Bool) :
    ¬ nlTriple <:+: convert text source target n true trim false wrap sym smart := by
  simp only [convert, Bool.false_eq_true, if_false, if_true]
  exact collapseBlank_no_triple _

/-- Counterexample for C2 as stated: with `collapseBlankLines` and
`keepCodeFences` both true, a fenced block containing a blank-line run is
restored verbatim after collapsing, so the output contains three consecutive
newlines. -/
theorem c2_restored_fence_breaks_collapse :
    nlTriple <:+: convert "```\n\n\n\n```".toList "Auto" "Markdown / Obsidian" 2
      true true true false "•".toList true := by decide

/-- Claim C3 (amended): on empty input `convert` never fails and returns
empty output — the empty string for the text targets and the unknown-target
fallback and `"[]"` for the StructuredOutline target — except that the
ChatSafe/Slack-friendly target with `chatWrapCodeblock` enabled wraps the
empty result in fence lines and returns `"```\n\n```"`. -/
theorem c3_empty_input (source target : String) (n : Nat) (cb trim keep wrap : Bool)
    (sym : List Char) (smart : Bool) :
    convert [] source target n cb trim keep wrap sym smart =
      (if target = "Slack-friendly" ∧ wrap = true then "```\n\n```".toList
       else if target = "JSON outline (beta)" then "[]".toList else []) := by
  have hnorm : normalize_text [] smart = [] := by cases smart <;> rfl
  have hpre : preclean source [] = [] := by
    unfold preclean; split_ifs <;> rfl
  cases keep <;> cases cb <;> cases wrap <;> cases trim <;>
    simp only [convert, hnorm, hpre, Bool.false_eq_true, Bool.true_eq_false, if_false,
      if_true, ite_true, ite_false] <;>
    (split_ifs <;> first | rfl | simp_all)

/-- Counterexample for C3 as stated: for the Slack-friendly target with the
wrap option enabled, empty input yields the fence wrapper, not the empty
string. -/
theorem c3_wrap_on_empty_not_empty :
    convert [] "Auto" "Slack-friendly" 2 true true true true "•".toList true =
      "```\n\n```".toList ∧
    "```\n\n```".toList ≠ ([] : List Char) :=
  ⟨by rfl, by decide⟩

/-! Fence splitting (C9, C1). -/

theorem fence_eq_cons : fence = backtick :: backtick :: backtick :: [] := by decide

theorem splitFence_cons (c : Char) (rest : List Char) :
    splitFence (c :: rest) =
      if fence.isPrefixOf (c :: rest) then some ([], (c :: rest).drop 3)
      else (splitFence rest).map (fun p => (c :: p.1, p.2)) := rfl

theorem splitFence_of_head (l : List Char) (hp : fence.isPrefixOf l = true) :
    splitFence l = some ([], l.drop 3) := by
  cases l with
  | nil =>
    have := List.isPrefixOf_iff_prefix.mp hp
    have hf : fence = [] := List.prefix_nil.mp this
    exact absurd hf (by decide)
  | cons c rest => simp [splitFence, hp]

theorem splitFence_inv {l a b : List Char} (h : splitFence l = some (a, b)) :
    l = a ++ fence ++ b := by
  induction l generalizing a b with
  | nil => simp [splitFence] at h
  | cons c rest ih =>
    by_cases hp : fence.isPrefixOf (c :: rest) = true
    · rw [splitFence_of_head (c :: rest) hp] at h
      obtain ⟨ha, hb⟩ := Prod.mk.injEq .. ▸ Option.some.inj h
      subst ha
      obtain ⟨t, ht⟩ := List.isPrefixOf_iff_prefix.mp hp
      have hlen : fence.length = 3 := by decide
      have hdrop : (c :: rest).drop 3 = t := by
        rw [← ht, ← hlen, List.drop_left]
      rw [← hb, hdrop, ← ht]
      simp
    · have hcond : ¬ (fence.isPrefixOf (c :: rest) = true) := hp
      rw [splitFence_cons, if_neg hcond] at h
      cases hs : splitFence rest with
      | none => rw [hs] at h; simp at h
      | some p =>
        obtain ⟨a', b'⟩ := p
        rw [hs] at h
        obtain ⟨ha, hb⟩ := Prod.mk.injEq .. ▸ Option.some.inj h
        subst hb
        rw [← ha]
        have := ih hs
        rw [this]
        simp

theorem splitFence_none {v : List Char} (hv : ¬ fence <:+: v) : splitFence v = none := by
  induction v with
  | nil => rfl
  | cons c rest ih =>
    by_cases hp : fence.isPrefixOf (c :: rest) = true
    · exact absurd (List.isPrefixOf_iff_prefix.mp hp).isInfix hv
    · rw [splitFence_cons, if_neg hp]
      rw [ih (fun h => hv (List.infix_cons h))]
      rfl

theorem splitFence_at {u tail : List Char} (hu : ¬ fence <:+: u)
    (hul : u.getLast? ≠ some backtick) :
    splitFence (u ++ fence ++ tail) = some (u, tail) := by
  induction u with
  | nil =>
    rw [List.nil_append]
    rw [splitFence_of_head (fence ++ tail) (List.isPrefixOf_iff_prefix.mpr ⟨tail, rfl⟩)]
    have hlen : fence.length = 3 := by decide
    have hdrop : (fence ++ tail).drop 3 = tail := by
      rw [← hlen, List.drop_left]
    rw [hdrop]
  | cons c u' ih =>
    have hu' : ¬ fence <:+: u' := fun h => hu (List.infix_cons h)
    have hul' : u'.getLast? ≠ some backtick := by
      cases u' with
      | nil => simp
      | cons d u'' => rwa [List.getLast?_cons_cons] at hul
    have hp : ¬ (fence.isPrefixOf (c :: (u' ++ fence ++ tail)) = true) := by
      intro hcon
      obtain ⟨t, ht⟩ := List.isPrefixOf_iff_prefix.mp hcon
      rw [fence_eq_cons] at ht
      cases u' with
      | nil =>
        have hc : c = backtick := by
          have := congrArg (fun l => l.head?) ht
          simpa using this.symm
        exact hul (by simp [hc])
      | cons d u'' =>
        have hc : c = backtick := by
          have := congrArg (fun l => l.head?) ht
          simpa using this.symm
        have hd : d = backtick := by
          have := congrArg (fun l => l.head?) (congrArg List.tail ht)
          simpa using this.symm
        cases u'' with
        | nil => exact hul' (by simp [hd])
        | cons e u''' =>
          have he : e = backtick := by
            have := congrArg (fun l => l.head?) (congrArg List.tail (congrArg List.tail ht))
            simpa using this.symm
          apply hu
          refine ⟨[], u''', ?_⟩
          rw [fence_eq_cons, hc, hd, he]
          simp
    rw [show ((c :: u') ++ fence ++ tail) = (c :: (u' ++ fence ++ tail)) by simp]
    rw [splitFence_cons, if_neg hp, ih hu' hul']
    rfl

/-- Claim C9: an unterminated fence is not matched by `extract_code_fences`.
With a single (hence unterminated) triple-backtick delimiter, the text is
returned unchanged and no placeholder is created; with three delimiters, one
balanced block is extracted and the final unterminated fence and its content
flow through unreplaced.  Totality of the model makes this a non-error path. -/
theorem c9_unterminated_fence (u v w x : List Char)
    (hu1 : ¬ fence <:+: u) (hu2 : u.getLast? ≠ some backtick)
    (hv1 : ¬ fence <:+: v) (hv2 : v.getLast? ≠ some backtick)
    (hw1 : ¬ fence <:+: w) (hw2 : w.getLast? ≠ some backtick)
    (hx : ¬ fence <:+: x) :
    extract_code_fences (u ++ fence ++ v) = (u ++ fence ++ v, []) ∧
    extract_code_fences (u ++ fence ++ (v ++ fence ++ (w ++ fence ++ x))) =
      (u ++ placeholderKey 0 ++ (w ++ fence ++ x),
        [(placeholderKey 0, fence ++ v ++ fence)]) := by
  constructor
  · have h1 : splitFence (u ++ fence ++ v) = some (u, v) := splitFence_at hu1 hu2
    have h2 : splitFence v = none := splitFence_none hv1
    rw [extract_code_fences]
    simp only [extractAuxF, h1, h2]
  · have h1 : splitFence (u ++ fence ++ (v ++ fence ++ (w ++ fence ++ x))) =
        some (u, v ++ fence ++ (w ++ fence ++ x)) := splitFence_at hu1 hu2
    have h2 : splitFence (v ++ fence ++ (w ++ fence ++ x)) = some (v, w ++ fence ++ x) :=
      splitFence_at hv1 hv2
    have h3 : splitFence (w ++ fence ++ x) = some (w, x) := splitFence_at hw1 hw2
    have h4 : splitFence x = none := splitFence_none hx
    obtain ⟨m', hm'⟩ : ∃ m',
        (u ++ fence ++ (v ++ fence ++ (w ++ fence ++ x))).length = m' + 1 := by
      refine ⟨(u ++ fence ++ (v ++ fence ++ (w ++ fence ++ x))).length - 1, ?_⟩
      have h5 : 0 < (u ++ fence ++ (v ++ fence ++ (w ++ fence ++ x))).length := by
        simp [fence]
      omega
    rw [extract_code_fences, hm']
    simp only [extractAuxF, h1, h2, h3, h4]

/-- Witness for C9 at concrete fragments around the delimiters. -/
theorem c9_unterminated_fence_witness :
    extract_code_fences ("a\n".toList ++ fence ++ "\ncode".toList) =
      ("a\n".toList ++ fence ++ "\ncode".toList, []) ∧
    extract_code_fences ("a\n".toList ++ fence ++
        ("\ncode\n".toList ++ fence ++ ("\nmid\n".toList ++ fence ++ " tail".toList))) =
      ("a\n".toList ++ placeholderKey 0 ++ ("\nmid\n".toList ++ fence ++ " tail".toList),
        [(placeholderKey 0, fence ++ "\ncode\n".toList ++ fence)]) := by
  have h := c9_unterminated_fence "a\n".toList "\ncode\n".toList "\nmid\n".toList
    " tail".toList (by decide) (by decide) (by decide) (by decide) (by decide) (by decide)
    (by decide)
  constructor
  · have h2 := c9_unterminated_fence "a\n".toList "\ncode".toList "\nmid\n".toList
      " tail".toList (by decide) (by decide) (by decide) (by decide) (by decide) (by decide)
      (by decide)
    exact h2.1
  · exact h.2

/-! Placeholder preservation through the pipeline (C1). -/

/-- Column counter accompanying `expandAux` over a processed prefix. -/
def colAfter (n : Nat) : Nat → List Char → Nat
  | col, [] => col
  | col, c :: rest =>
    if c = '\t' then
      let pad := if n = 0 then 0 else n - col % n
      colAfter n (col + pad) rest
    else if c = '\n' || c = '\r' then colAfter n 0 rest
    else colAfter n (col + 1) rest

theorem expandAux_append (n : Nat) (a b : List Char) :
    ∀ col, expandAux n col (a ++ b) = expandAux n col a ++ expandAux n (colAfter n col a) b := by
  induction a with
  | nil => intro col; simp [expandAux, colAfter]
  | cons c a' ih =>
    intro col
    by_cases hc : c = '\t'
    · subst hc
      simp [expandAux, colAfter, ih]
    · by_cases hnl : (c = '\n' || c = '\r') = true
      · simp [expandAux, colAfter, hc, hnl, ih]
      · simp [expandAux, colAfter, hc, hnl, ih]

theorem expandAux_id_no_tab {x : List Char} (hx : '\t' ∉ x) :
    ∀ col n, expandAux n col x = x := by
  induction x with
  | nil => intro col n; rfl
  | cons c x' ih =>
    intro col n
    have hc : c ≠ '\t' := fun h => hx (by simp [h])
    have hx' : '\t' ∉ x' := fun h => hx (by simp [h])
    by_cases hnl : (c = '\n' || c = '\r') = true
    · simp [expandAux, hc, hnl, ih hx']
    · simp [expandAux, hc, hnl, ih hx']

theorem infix_expandtabs {x l : List Char} (hx : '\t' ∉ x) (n : Nat)
    (h : x <:+: l) : x <:+: expandtabs n l := by
  obtain ⟨s, t, rfl⟩ := h
  rw [expandtabs]
  rw [show s ++ x ++ t = s ++ (x ++ t) by simp]
  rw [expandAux_append n s (x ++ t)]
  rw [expandAux_append n x t]
  rw [expandAux_id_no_tab hx]
  exact ⟨expandAux n 0 s, expandAux n (colAfter n (colAfter n 0 s) x) t, by simp⟩

/-- The placeholder of the first extracted block. -/
def kTok : List Char := placeholderKey 0

theorem kTok_cons : kTok = '_' :: "_CODEBLOCK_0__".toList := by decide

theorem kTok_snoc : kTok = "__CODEBLOCK_0_".toList ++ ['_'] := by decide

theorem kTok_unify {l : List Char} (h : kTok <:+: l) : kTok <:+: unify_markers l := by
  rw [unify_markers]
  have h1 : kTok <:+: bulletStage l := by
    cases hb : bulletMatch l with
    | none => rw [bulletStage, hb]; exact h
    | some r =>
      obtain ⟨c, ws, hdec, hcb, hwsne, hwsall, hhead⟩ := bulletMatch_some hb
      rw [bulletStage, hb]
      rw [hdec] at h
      rw [kTok_cons] at h ⊢
      have hpre : ∀ d ∈ c :: ws, d ≠ '_' := by
        intro d hd hde
        rcases List.mem_cons.mp hd with rfl | hdw
        · rw [hde] at hcb; exact absurd hcb (by decide)
        · have := hwsall d hdw; rw [hde] at this; exact absurd this (by decide)
      have hr : ('_' :: "_CODEBLOCK_0__".toList) <:+: r := by
        apply infix_tail_of_head_ne hpre
        rw [show (c :: ws) ++ r = c :: ws ++ r by simp]
        exact h
      exact List.infix_cons (List.infix_cons hr)
  cases hn : numMatch (bulletStage l) with
  | none => rw [numStage, hn]; exact h1
  | some gr =>
    obtain ⟨g, r⟩ := gr
    obtain ⟨hgne, hrh, hshape, s2, ws, hdec, hsep, hwsne, hwsall⟩ := numMatch_some hn
    rw [numStage, hn]
    rw [hdec] at h1
    rw [kTok_cons] at h1 ⊢
    have hgne' : ∀ d ∈ g, d ≠ '_' := by
      intro d hd hde
      rcases hshape with hdig | ⟨e, rfl, hea⟩ | ⟨_, hrm⟩
      · have := hdig d hd; rw [hde] at this; exact absurd this (by decide)
      · have : d = e := by simpa using hd
        rw [this] at hde; rw [hde] at hea; exact absurd hea (by decide)
      · have := roman_alpha (hrm d hd); rw [hde] at this; exact absurd this (by decide)
    have hpre : ∀ d ∈ g ++ s2 :: ws, d ≠ '_' := by
      intro d hd hde
      rcases List.mem_append.mp hd with hdg | hds
      · exact hgne' d hdg hde
      · rcases List.mem_cons.mp hds with rfl | hdw
        · rcases hsep with rfl | rfl <;> simp at hde
        · have := hwsall d hdw; rw [hde] at this; exact absurd this (by decide)
    have hr : ('_' :: "_CODEBLOCK_0__".toList) <:+: r := by
      apply infix_tail_of_head_ne hpre
      rw [show (g ++ s2 :: ws) ++ r = g ++ s2 :: ws ++ r by simp]
      exact h1
    have h2 := infix_extend_left (g ++ ['.', ' ']) hr
    rw [show (g ++ ['.', ' ']) ++ r = g ++ '.' :: ' ' :: r by simp] at h2
    exact h2

theorem kTok_gdocsBullet {r : List Char} (sym : List Char) (h : kTok <:+: r) :
    kTok <:+: gdocsBullet sym r := by
  cases r with
  | nil => exact h
  | cons c rest =>
    by_cases hc : c = '-'
    · subst hc
      by_cases he : ((rest.takeWhile isPySpace).isEmpty) = true
      · simpa [gdocsBullet, he] using h
      · simp only [gdocsBullet, if_true, he, if_false]
        rw [kTok_cons] at h ⊢
        have hr : ('_' :: "_CODEBLOCK_0__".toList) <:+: rest := by
          rcases List.infix_cons_iff.mp h with hp | hi
          · exfalso
            obtain ⟨t, ht⟩ := hp
            have : '_' = '-' := by
              have := congrArg (fun l => l.head?) ht
              simpa using this
            exact absurd this (by decide)
          · exact hi
        have hr2 := infix_drop_head (show isPySpace '_' = false by decide) hr
        have h3 := infix_extend_left (sym ++ [' ']) hr2
        rw [show (sym ++ [' ']) ++ rest.dropWhile isPySpace =
          sym ++ ' ' :: rest.dropWhile isPySpace by simp] at h3
        exact h3
    · simpa [gdocsBullet, hc] using h

theorem kTok_rstrip {l : List Char} (h : kTok <:+: l) : kTok <:+: rstrip l := by
  rw [kTok_snoc] at h ⊢
  exact infix_rstrip_last (by decide) h

theorem kTok_not_blank {raw : List Char} (h : kTok <:+: raw) : isBlank raw = false := by
  have hmem : '_' ∈ raw := by
    rw [kTok_cons] at h
    exact h.subset (by simp)
  cases hb : isBlank raw with
  | false => rfl
  | true =>
    exfalso
    have := List.all_eq_true.mp hb '_' hmem
    exact absurd this (by decide)

theorem kTok_dropSpaceTab {l : List Char} (h : kTok <:+: l) :
    kTok <:+: l.dropWhile isSpaceTab := by
  rw [kTok_cons] at h ⊢
  exact infix_drop_head (by decide) h

theorem kTok_mdLine {raw : List Char} (n : Nat) (trim : Bool) (h : kTok <:+: raw) :
    kTok <:+: mdLine n trim raw := by
  rw [mdLine, kTok_not_blank h]
  simp only [Bool.false_eq_true, if_false]
  have h1 := infix_expandtabs (by decide) n h
  have h2 := kTok_dropSpaceTab h1
  have h3 := kTok_unify h2
  have h4 := infix_extend_left
    (List.replicate (n * (((expandtabs n raw).takeWhile isSpaceTab).length / n)) ' ') h3
  cases trim with
  | false => simpa using h4
  | true => simpa using kTok_rstrip h4

theorem kTok_gdocsLine {raw : List Char} (n : Nat) (sym : List Char) (trim : Bool)
    (h : kTok <:+: raw) : kTok <:+: gdocsLine n sym trim raw := by
  rw [gdocsLine, kTok_not_blank h]
  simp only [Bool.false_eq_true, if_false]
  have h1 := infix_expandtabs (by decide) n h
  have h2 := kTok_dropSpaceTab h1
  have h3 := kTok_unify h2
  have h4 := kTok_gdocsBullet sym h3
  have h5 := infix_extend_left
    (List.replicate (((expandtabs n raw).takeWhile isSpaceTab).length / n) '\t') h4
  cases trim with
  | false => simpa using h5
  | true => simpa using kTok_rstrip h5

theorem kTok_plainLine {raw : List Char} (n : Nat) (trim : Bool) (h : kTok <:+: raw) :
    kTok <:+: plainLine n trim raw := by
  rw [plainLine]
  have h1 := infix_expandtabs (by decide) n h
  cases trim with
  | false => simpa using h1
  | true => simpa using kTok_rstrip h1

theorem kTok_itemText {raw : List Char} (n : Nat) (h : kTok <:+: raw) :
    kTok <:+: (itemFor n raw).text := by
  rw [itemFor]
  exact kTok_unify (kTok_dropSpaceTab (infix_expandtabs (by decide) n h))

theorem splitNl_ne_nil (l : List Char) : splitNl l ≠ [] := by
  cases l with
  | nil => simp [splitNl]
  | cons c rest =>
    by_cases hc : c = '\n'
    · simp [splitNl, hc]
    · simp only [splitNl, hc, Bool.false_eq_true, if_false]
      cases splitNl rest <;> simp

theorem splitNl_append_nlfree {x : List Char} (hx : '\n' ∉ x) :
    ∀ b, ∃ L T, splitNl b = L :: T ∧ splitNl (x ++ b) = (x ++ L) :: T := by
  induction x with
  | nil =>
    intro b
    cases hs : splitNl b with
    | nil => exact absurd hs (splitNl_ne_nil b)
    | cons L T => exact ⟨L, T, rfl, by simpa using hs⟩
  | cons c x' ih =>
    intro b
    have hc : c ≠ '\n' := fun h => hx (by simp [h])
    have hx' : '\n' ∉ x' := fun h => hx (by simp [h])
    obtain ⟨L, T, hb, hxb⟩ := ih hx' b
    refine ⟨L, T, hb, ?_⟩
    rw [List.cons_append, splitNl]
    simp only [hc, if_false]
    rw [hxb]
    simp

theorem kTok_splitNl {t : List Char} (h : kTok <:+: t) :
    ∃ l ∈ splitNl t, kTok <:+: l := by
  obtain ⟨a, b, rfl⟩ := h
  induction a with
  | nil =>
    obtain ⟨L, T, hb, hxb⟩ := splitNl_append_nlfree (show ('\n' ∉ kTok) by decide) b
    rw [List.nil_append, hxb]
    exact ⟨kTok ++ L, by simp, infix_extend_right L (List.infix_refl kTok)⟩
  | cons c a' ih =>
    by_cases hc : c = '\n'
    · subst hc
      rw [show ('\n' :: a') ++ kTok ++ b = '\n' :: (a' ++ kTok ++ b) by simp, splitNl]
      simp only [if_true]
      obtain ⟨l, hl, hkl⟩ := ih
      exact ⟨l, List.mem_cons_of_mem _ (by simpa using hl), hkl⟩
    · rw [show ((c :: a') ++ kTok ++ b) = c :: (a' ++ kTok ++ b) by simp, splitNl]
      simp only [hc, if_false]
      obtain ⟨l, hl, hkl⟩ := ih
      cases hs : splitNl (a' ++ kTok ++ b) with
      | nil => exact absurd hs (splitNl_ne_nil _)
      | cons L T =>
        rw [hs] at hl
        rcases List.mem_cons.mp hl with rfl | hlT
        · exact ⟨c :: l, by simp, List.infix_cons hkl⟩
        · exact ⟨l, by simp [hlT], hkl⟩

theorem mem_joinWith {x : List Char} {L : List (List Char)} (sep : List Char)
    (h : x ∈ L) : x <:+: joinWith sep L := by
  induction L with
  | nil => simp at h
  | cons y L' ih =>
    cases L' with
    | nil =>
      have : x = y := by simpa using h
      subst this
      exact List.infix_refl x
    | cons z L'' =>
      rcases List.mem_cons.mp h with rfl | hmem
      · exact infix_extend_right _ (infix_extend_right sep (List.infix_refl x))
      · exact infix_extend_left (y ++ sep) (ih hmem)

theorem joinWith_single (sep a : List Char) : joinWith sep [a] = a := rfl

theorem joinWith_cons_cons (sep a b : List Char) (t : List (List Char)) :
    joinWith sep (a :: b :: t) = a ++ sep ++ joinWith sep (b :: t) := rfl

theorem joinNl_splitNl (l : List Char) : joinNl (splitNl l) = l := by
  induction l with
  | nil => rfl
  | cons c rest ih =>
    by_cases hc : c = '\n'
    · subst hc
      rw [splitNl]
      simp only [if_true]
      cases hs : splitNl rest with
      | nil => exact absurd hs (splitNl_ne_nil rest)
      | cons L T =>
        rw [hs] at ih
        rw [joinNl, joinWith_cons_cons]
        rw [joinNl] at ih
        rw [ih]
        rfl
    · rw [splitNl]
      simp only [hc, if_false]
      cases hs : splitNl rest with
      | nil => exact absurd hs (splitNl_ne_nil rest)
      | cons L T =>
        rw [hs] at ih
        cases T with
        | nil =>
          rw [joinNl, joinWith_single]
          rw [joinNl, joinWith_single] at ih
          rw [ih]
        | cons T1 T' =>
          rw [joinNl, joinWith_cons_cons]
          rw [joinNl, joinWith_cons_cons] at ih
          rw [show (c :: L) ++ ['\n'] ++ joinWith ['\n'] (T1 :: T') =
            c :: (L ++ ['\n'] ++ joinWith ['\n'] (T1 :: T')) by simp, ih]

theorem collapseAux_prepend_nlfree {x : List Char} (hx : '\n' ∉ x) :
    ∀ b, collapseAux 0 (x ++ b) = x ++ collapseAux 0 b := by
  induction x with
  | nil => intro b; rfl
  | cons c x' ih =>
    intro b
    have hc : c ≠ '\n' := fun h => hx (by simp [h])
    have hx' : '\n' ∉ x' := fun h => hx (by simp [h])
    rw [List.cons_append, collapseAux]
    simp only [hc, if_false]
    rw [ih hx']
    rfl

theorem kTok_collapseAux {a b : List Char} : ∀ n, kTok <:+: collapseAux n (a ++ kTok ++ b) := by
  induction a with
  | nil =>
    intro n
    rw [List.nil_append]
    rw [show kTok ++ b = '_' :: ("_CODEBLOCK_0__".toList ++ b) by rw [kTok_cons]; simp]
    rw [collapseAux]
    simp only [show ('_' : Char) = '\n' ↔ False by simp, if_false]
    rw [collapseAux_prepend_nlfree (by decide) b]
    have h1 : kTok <:+: '_' :: ("_CODEBLOCK_0__".toList ++ collapseAux 0 b) := by
      rw [kTok_cons]
      exact ⟨[], collapseAux 0 b, by simp⟩
    exact infix_extend_left (emitRun n) h1
  | cons c a' ih =>
    intro n
    by_cases hc : c = '\n'
    · subst hc
      rw [show ('\n' :: a') ++ kTok ++ b = '\n' :: (a' ++ kTok ++ b) by simp, collapseAux]
      simp only [if_true]
      exact ih (n + 1)
    · rw [show ((c :: a') ++ kTok ++ b) = c :: (a' ++ kTok ++ b) by simp, collapseAux]
      simp only [hc, if_false]
      have h1 := infix_extend_left (emitRun n ++ [c]) (ih 0)
      rw [show (emitRun n ++ [c]) ++ collapseAux 0 (a' ++ kTok ++ b) =
        emitRun n ++ c :: collapseAux 0 (a' ++ kTok ++ b) by simp] at h1
      exact h1

theorem kTok_collapseBlank {s : List Char} (h : kTok <:+: s) : kTok <:+: collapseBlank s := by
  obtain ⟨a, b, rfl⟩ := h
  exact kTok_collapseAux 0

theorem replaceAllF_rep {pat rep : List Char} (hne : pat ≠ []) :
    ∀ m s, s.length < m → pat <:+: s → rep <:+: replaceAllF m s pat rep := by
  intro m
  induction m with
  | zero => intro s hs _; omega
  | succ m' ih =>
    intro s hs h
    cases s with
    | nil =>
      exact absurd (List.eq_nil_of_infix_nil h) hne
    | cons c rest =>
      by_cases hp : pat.isPrefixOf (c :: rest) = true
      · rw [replaceAllF]
        simp only [hp, if_true]
        exact ⟨[], _, rfl⟩
      · rw [replaceAllF]
        simp only [hp, Bool.false_eq_true, if_false]
        rcases List.infix_cons_iff.mp h with hpre | hi
        · exact absurd (List.isPrefixOf_iff_prefix.mpr hpre) hp
        · have hlen : rest.length < m' := by simp at hs; omega
          exact List.infix_cons (ih rest hlen hi)

theorem replaceAll_rep {pat rep s : List Char} (hne : pat ≠ []) (h : pat <:+: s) :
    rep <:+: replaceAll s pat rep :=
  replaceAllF_rep hne (s.length + 1) s (by omega) h

theorem jsonEscape_append (a b : List Char) :
    jsonEscape (a ++ b) = jsonEscape a ++ jsonEscape b := by
  simp [jsonEscape]

theorem jsonEscape_kTok : jsonEscape kTok = kTok := by decide

theorem kTok_itemBlock {it : OutlineItem} (h : kTok <:+: it.text) :
    kTok <:+: jsonItemBlock it := by
  obtain ⟨a, b, hab⟩ := h
  rw [jsonItemBlock, ← hab, jsonEscape_append, jsonEscape_append, jsonEscape_kTok]
  have h1 : kTok <:+: kTok ++ jsonEscape b := infix_extend_right _ (List.infix_refl kTok)
  have h2 := infix_extend_left (jsonEscape a) h1
  have h3 := infix_extend_right ("\"\n  \x7d".toList) h2
  have h4 := infix_extend_left
    ("  \x7b\n    \"level\": ".toList ++ (Nat.repr it.level).toList ++
      ",\n    \"text\": \"".toList) h3
  simpa [List.append_assoc] using h4

theorem itemBlock_jsonDumps {it : OutlineItem} {items : List OutlineItem}
    (h : it ∈ items) : jsonItemBlock it <:+: jsonDumps items := by
  cases items with
  | nil => simp at h
  | cons i is =>
    have hd : jsonDumps (i :: is) =
        "[\n".toList ++ joinWith ",\n".toList ((i :: is).map jsonItemBlock) ++
          "\n]".toList := rfl
    rw [hd]
    have h1 : jsonItemBlock it ∈ (i :: is).map jsonItemBlock := List.mem_map_of_mem _ h
    have h2 := mem_joinWith ",\n".toList h1
    exact infix_extend_right "\n]".toList (infix_extend_left "[\n".toList h2)

theorem itemFor_mem_outline {raw : List Char} {lines : List (List Char)} (n : Nat)
    (hmem : raw ∈ lines) (hnb : isBlank raw = false) :
    itemFor n raw ∈ outlineItems lines n := by
  induction lines with
  | nil => simp at hmem
  | cons y ys ih =>
    rcases List.mem_cons.mp hmem with rfl | hmem'
    · rw [outlineItems, hnb]
      simp
    · rw [outlineItems]
      by_cases hy : isBlank y = true
      · simp only [hy, if_true]
        exact ih hmem'
      · simp only [Bool.not_eq_true] at hy
        simp only [hy, Bool.false_eq_true, if_false]
        exact List.mem_cons_of_mem _ (ih hmem')

theorem extract_single {u v w : List Char}
    (hu1 : ¬ fence <:+: u) (hu2 : u.getLast? ≠ some backtick)
    (hv1 : ¬ fence <:+: v) (hv2 : v.getLast? ≠ some backtick)
    (hw : ¬ fence <:+: w) :
    extract_code_fences (u ++ fence ++ (v ++ fence ++ w)) =
      (u ++ kTok ++ w, [(kTok, fence ++ v ++ fence)]) := by
  have h1 : splitFence (u ++ fence ++ (v ++ fence ++ w)) = some (u, v ++ fence ++ w) :=
    splitFence_at hu1 hu2
  have h2 : splitFence (v ++ fence ++ w) = some (v, w) := splitFence_at hv1 hv2
  have h3 : splitFence w = none := splitFence_none hw
  obtain ⟨m', hm'⟩ : ∃ m', (u ++ fence ++ (v ++ fence ++ w)).length = m' + 1 := by
    refine ⟨(u ++ fence ++ (v ++ fence ++ w)).length - 1, ?_⟩
    have h5 : 0 < (u ++ fence ++ (v ++ fence ++ w)).length := by simp [fence]
    omega
  rw [extract_code_fences, hm']
  simp only [extractAuxF, h1, h2, h3]
  cases m' with
  | zero => simp [extractAuxF, kTok]
  | succ m'' => simp only [extractAuxF, h3, kTok]

/-- Claim C1 (amended): for an input consisting of exactly one balanced fenced
block (with no stray triple backticks around it and no backtick adjoining the
delimiters), when the input is left unchanged by normalization and by the
source pre-clean and `keepCodeFences` is true, the whole fenced block —
delimiters and interior — appears byte-identical in the output of `convert`,
for every target kind and all remaining options. -/
theorem c1_code_fence_preserved (u v w : List Char) (source target : String) (n : Nat)
    (cb trim wrap : Bool) (sym : List Char) (smart : Bool)
    (hu1 : ¬ fence <:+: u) (hu2 : u.getLast? ≠ some backtick)
    (hv1 : ¬ fence <:+: v) (hv2 : v.getLast? ≠ some backtick)
    (hw : ¬ fence <:+: w)
    (hnorm : normalize_text (u ++ fence ++ (v ++ fence ++ w)) smart =
      u ++ fence ++ (v ++ fence ++ w))
    (hpre : preclean source (u ++ fence ++ (v ++ fence ++ w)) =
      u ++ fence ++ (v ++ fence ++ w)) :
    (fence ++ v ++ fence) <:+:
      convert (u ++ fence ++ (v ++ fence ++ w)) source target n cb trim true wrap sym
        smart := by
  have hex := extract_single hu1 hu2 hv1 hv2 hw
  simp only [convert, hnorm, hpre, hex, eq_self_iff_true, if_true]
  have hrestore : ∀ r : List Char,
      restore_code_fences r [(kTok, fence ++ v ++ fence)] =
        replaceAll r kTok (fence ++ v ++ fence) := fun r => rfl
  rw [hrestore]
  apply replaceAll_rep (by decide)
  have hk3 : kTok <:+: u ++ kTok ++ w := ⟨u, w, rfl⟩
  obtain ⟨lv, hin, hkl⟩ := kTok_splitNl hk3
  have hkR : ∀ R : List Char, kTok <:+: R → kTok <:+: (if cb = true then collapseBlank R else R) := by
    intro R hR
    cases cb with
    | false => simpa using hR
    | true => simpa using kTok_collapseBlank hR
  apply hkR
  split_ifs with h1 h2 h3 h4 h5 h6
  · have hline := kTok_mdLine n trim hkl
    have hmem : mdLine n trim lv ∈ (splitNl (u ++ kTok ++ w)).map (mdLine n trim) :=
      List.mem_map_of_mem _ hin
    exact hline.trans (mem_joinWith ['\n'] hmem)
  · have hline := kTok_mdLine n trim hkl
    have hmem : mdLine n trim lv ∈ (splitNl (u ++ kTok ++ w)).map (mdLine n trim) :=
      List.mem_map_of_mem _ hin
    have hr : kTok <:+: joinNl (lines_to_markdown (splitNl (u ++ kTok ++ w)) n trim) :=
      hline.trans (mem_joinWith ['\n'] hmem)
    have hwrapped := infix_extend_left "```\n".toList (infix_extend_right "\n```".toList hr)
    simpa using hwrapped
  · have hline := kTok_mdLine n trim hkl
    have hmem : mdLine n trim lv ∈ (splitNl (u ++ kTok ++ w)).map (mdLine n trim) :=
      List.mem_map_of_mem _ hin
    exact hline.trans (mem_joinWith ['\n'] hmem)
  · have hline := kTok_gdocsLine n sym trim hkl
    have hmem : gdocsLine n sym trim lv ∈ (splitNl (u ++ kTok ++ w)).map (gdocsLine n sym trim) :=
      List.mem_map_of_mem _ hin
    exact hline.trans (mem_joinWith ['\n'] hmem)
  · have hline := kTok_plainLine n trim hkl
    have hmem : plainLine n trim lv ∈ (splitNl (u ++ kTok ++ w)).map (plainLine n trim) :=
      List.mem_map_of_mem _ hin
    exact hline.trans (mem_joinWith ['\n'] hmem)
  · have hnb : isBlank lv = false := kTok_not_blank hkl
    have hitem := itemFor_mem_outline n hin hnb
    have htext := kTok_itemText n hkl
    exact (kTok_itemBlock htext).trans (itemBlock_jsonDumps hitem)
  · rw [joinNl_splitNl]
    exact hk3

/-- Witness for C1 at a concrete document with one balanced `SELECT 1` block,
Markdown target and all cleanup options enabled. -/
theorem c1_code_fence_preserved_witness :
    (fence ++ "\nSELECT 1\n".toList ++ fence) <:+:
      convert ("intro\n".toList ++ fence ++ ("\nSELECT 1\n".toList ++ fence ++
        "\noutro".toList)) "Auto" "Markdown / Obsidian" 2 true true true false
        "•".toList true :=
  c1_code_fence_preserved "intro\n".toList "\nSELECT 1\n".toList "\noutro".toList
    "Auto" "Markdown / Obsidian" 2 true true false "•".toList true
    (by decide) (by decide) (by decide) (by decide) (by decide) (by decide) (by decide)

/-- Counterexample for C1 as stated: with `convertSmartQuotes` true the
normalizer rewrites a smart quote inside the fenced block before extraction,
so the block interior `“x` does not appear byte-identical in the output even
though `keepCodeFences` is true. -/
theorem c1_interior_changed_by_normalizer :
    convert "```“x```".toList "Auto" "Markdown / Obsidian" 2 false false true false
        "•".toList true = "```\"x```".toList ∧
    ¬ ("“x".toList <:+:
      convert "```“x```".toList "Auto" "Markdown / Obsidian" 2 false false true false
        "•".toList true) :=
  ⟨by decide, by decide⟩
